import Mathlib

/-!
Verification development for the FT-integration GitHub action
(`opentext/github-action-ft-integration-mbt`).

The TypeScript sources are shallowly embedded: strings are modelled as
`List Char` (via `String.data` for literals), JS arrays as `List`, JS `Map`
as insertion-ordered association lists, and remote/filesystem effects as
explicit parameters.  Each definition mirrors one source function; the file
and line references are given in the doc comments.
-/

namespace FtIntegration

/-! ### String helpers (JS string primitives over `List Char`) -/

/-- JS `String.prototype.includes(c)` for a single character. -/
def strContainsChar (s : List Char) (c : Char) : Bool :=
  s.any (fun x => x == c)

/-- JS `value.startsWith('"')`: non-empty and first char is `"`. -/
def startsWithQuote (s : List Char) : Bool :=
  match s with
  | [] => false
  | c :: _ => c == '"'

/-- JS `value.endsWith('"')`: non-empty and last char is `"`. -/
def endsWithQuote (s : List Char) : Bool :=
  match s.getLast? with
  | none => false
  | some c => c == '"'

/-! ### `escapeCsvVal` — `src/test/MbtDataPrepConverter.ts` lines 67–79 -/

/-- `value.replace(/"/g, '""')`: double every double quote. -/
def doubleQuotesJs (s : List Char) : List Char :=
  s.flatMap (fun c => if c == '"' then ['"', '"'] else [c])

/-- `/[",\n\r]/.test(value)`: value contains a quote, comma, LF or CR. -/
def hasCsvSpecialChar (s : List Char) : Bool :=
  s.any (fun c => c == '"' || c == ',' || c == '\n' || c == '\r')

/-- Embedding of `MbtDataPrepConverter.escapeCsvVal`
(`src/test/MbtDataPrepConverter.ts` lines 67–79).
`value.slice(1, -1)` on a string of length `n` keeps indices `1 .. n-2`,
which is `(drop 1).dropLast` (for length 1 it yields the empty string). -/
def escapeCsvVal (value : List Char) : List Char :=
  let v1 := if startsWithQuote value && endsWithQuote value
            then (value.drop 1).dropLast else value
  let v2 := if strContainsChar v1 '"' then doubleQuotesJs v1 else v1
  if hasCsvSpecialChar v2 then '"' :: v2 ++ ['"'] else v2

/-! Spec-side pipeline for the refinement statement of the CSV-escaping
claim: the spec describes `escapeCsvVal` as strip-wrapping-quotes, then
double internal quotes, then re-wrap when the result contains a special
character.  These definitions follow the spec's words. -/

/-- Spec wording: "first strips one pair of pre-existing wrapping double
quotes". -/
def specStripWrappingQuotes (s : List Char) : List Char :=
  if startsWithQuote s && endsWithQuote s then (s.drop 1).dropLast else s

/-- Spec wording: "then doubles every internal double quote". -/
def specDoubleInternalQuotes (s : List Char) : List Char :=
  s.flatMap (fun c => if c == '"' then ['"', '"'] else [c])

/-- Spec wording: "re-wraps the value in double quotes only if the
resulting value contains a comma, double quote, newline, or carriage
return". -/
def specRewrapIfSpecial (s : List Char) : List Char :=
  if s.any (fun c => c == ',' || c == '"' || c == '\n' || c == '\r')
  then '"' :: s ++ ['"'] else s

/-- Doubling quotes is the identity on a string with no quote. -/
theorem doubleQuotesJs_of_not_contains (s : List Char)
    (h : strContainsChar s '"' = false) : doubleQuotesJs s = s := by
  induction s with
  | nil => rfl
  | cons c cs ih =>
      simp only [strContainsChar, List.any_cons, Bool.or_eq_false_iff] at h
      have ih' : doubleQuotesJs cs = cs := ih (by simpa [strContainsChar] using h.2)
      simp only [doubleQuotesJs, List.flatMap_cons, h.1]
      simpa [doubleQuotesJs] using ih'

/-- The code's wrap test and the spec's wrap test agree. -/
theorem hasCsvSpecialChar_eq_spec (s : List Char) :
    hasCsvSpecialChar s
      = s.any (fun c => c == ',' || c == '"' || c == '\n' || c == '\r') := by
  unfold hasCsvSpecialChar
  induction s with
  | nil => rfl
  | cons c cs ih =>
      simp only [List.any_cons, ih]
      cases h1 : c == '"' <;> cases h2 : c == ',' <;> simp [h1, h2]

/-! ### Core discovery data model

Field sets follow the TypeScript DTOs as used by the embedded functions
(`UftoTestAction`, `AutomatedTest`, `ScmResourceFile`, `OctaneStatus`). -/

/-- `OctaneStatus` — sync status enum of the discovery model. -/
inductive OctaneStatus
  | NEW
  | MODIFIED
  | DELETED
  | NONE
deriving DecidableEq

/-- `UftoTestType` — GUI / API / None. -/
inductive UftoTestType
  | GUI
  | API
  | None
deriving DecidableEq

/-- `UftoTestAction` DTO (fields used by the embedded functions). -/
structure UftoTestAction where
  name : String := ""
  testName : Option String := none
  oldTestName : Option String := none
  logicalName : Option String := none
  repositoryPath : Option String := none
  id : Option String := none
  moved : Bool := false
  octaneStatus : OctaneStatus := OctaneStatus.NEW
  description : Option String := none
deriving DecidableEq

/-- `AutomatedTest` DTO (fields used by the embedded functions). -/
structure AutomatedTest where
  name : String
  packageName : String
  uftOneTestType : UftoTestType := UftoTestType.None
  executable : Bool := true
  description : String := ""
  actions : List UftoTestAction := []
  octaneStatus : OctaneStatus := OctaneStatus.NEW
  oldName : Option String := none
  oldPackageName : Option String := none
  isMoved : Bool := false
  changeSetSrc : Option String := none
  changeSetDst : Option String := none
deriving DecidableEq

/-- `ScmResourceFile` DTO. -/
structure ScmResourceFile where
  name : String
  relativePath : String
  octaneStatus : OctaneStatus := OctaneStatus.NEW
  changeSetSrc : Option String := none
  changeSetDst : Option String := none
deriving DecidableEq

/-! ### `removeTestDuplicatedForUpdateTests` — `src/discovery/Discovery.ts`
lines 97–110 -/

/-- The dedup key: `` `${test.packageName}_${test.name}` ``. -/
def updKey (t : AutomatedTest) : String :=
  t.packageName ++ "_" ++ t.name

/-- Loop of `removeTestDuplicatedForUpdateTests`: walk `_tests` carrying
the `keys` set, which only MODIFIED tests consult and extend; a MODIFIED
test whose key is already present goes to `testsToRemove` and is dropped
by the final identity-based `filter` (each JS array element is a distinct
object, so identity removal deletes exactly the later duplicates). -/
def removeDupAux (seen : List String) : List AutomatedTest → List AutomatedTest
  | [] => []
  | t :: ts =>
    if t.octaneStatus = OctaneStatus.MODIFIED then
      if updKey t ∈ seen then removeDupAux (updKey t :: seen) ts
      else t :: removeDupAux (updKey t :: seen) ts
    else t :: removeDupAux seen ts

/-- Embedding of `Discovery.removeTestDuplicatedForUpdateTests`
(`src/discovery/Discovery.ts` lines 97–110). -/
def removeTestDuplicatedForUpdateTests (tests : List AutomatedTest) : List AutomatedTest :=
  removeDupAux [] tests

/-- Spec-side description of the dedup pass: on the MODIFIED sublist,
keep the first test carrying each key and drop every later one. -/
def keepFirstByKey (seen : List String) : List AutomatedTest → List AutomatedTest
  | [] => []
  | t :: ts =>
    if updKey t ∈ seen then keepFirstByKey seen ts
    else t :: keepFirstByKey (updKey t :: seen) ts

/-- `keepFirstByKey` only depends on the membership content of `seen`. -/
theorem keepFirstByKey_congr (l : List AutomatedTest) :
    ∀ s₁ s₂ : List String, (∀ x, x ∈ s₁ ↔ x ∈ s₂) →
      keepFirstByKey s₁ l = keepFirstByKey s₂ l := by
  induction l with
  | nil => intro s₁ s₂ _; rfl
  | cons t ts ih =>
      intro s₁ s₂ h
      by_cases hk : updKey t ∈ s₁
      · have hk₂ : updKey t ∈ s₂ := (h _).mp hk
        simp only [keepFirstByKey, hk, hk₂, if_pos]
        exact ih s₁ s₂ h
      · have hk₂ : updKey t ∉ s₂ := fun hc => hk ((h _).mpr hc)
        simp only [keepFirstByKey, hk, hk₂, if_neg, not_false_iff]
        refine congrArg _ (ih _ _ ?_)
        intro x
        simp only [List.mem_cons]
        exact or_congr Iff.rfl (h x)

/-- Filtering the dedup-pass output for MODIFIED tests yields exactly the
keep-first-by-key pass over the MODIFIED sublist of the input. -/
theorem removeDupAux_filter_mod (ts : List AutomatedTest) :
    ∀ seen : List String,
      (removeDupAux seen ts).filter
          (fun t => decide (t.octaneStatus = OctaneStatus.MODIFIED))
        = keepFirstByKey seen
            (ts.filter (fun t => decide (t.octaneStatus = OctaneStatus.MODIFIED))) := by
  induction ts with
  | nil => intro seen; rfl
  | cons t ts ih =>
      intro seen
      by_cases hm : t.octaneStatus = OctaneStatus.MODIFIED
      · have hfc : (t :: ts).filter
              (fun t => decide (t.octaneStatus = OctaneStatus.MODIFIED))
            = t :: ts.filter (fun t => decide (t.octaneStatus = OctaneStatus.MODIFIED)) := by
          simp [List.filter_cons, hm]
        by_cases hk : updKey t ∈ seen
        · have h1 : removeDupAux seen (t :: ts) = removeDupAux (updKey t :: seen) ts := by
            simp [removeDupAux, hm, hk]
          have h2 : keepFirstByKey seen
                (t :: ts.filter (fun t => decide (t.octaneStatus = OctaneStatus.MODIFIED)))
              = keepFirstByKey seen
                  (ts.filter (fun t => decide (t.octaneStatus = OctaneStatus.MODIFIED))) := by
            simp [keepFirstByKey, hk]
          rw [h1, hfc, h2, ih (updKey t :: seen)]
          apply keepFirstByKey_congr
          intro x
          constructor
          · intro hx
            rcases List.mem_cons.mp hx with rfl | hx'
            · exact hk
            · exact hx'
          · exact fun hx => List.mem_cons_of_mem _ hx
        · have h1 : removeDupAux seen (t :: ts)
              = t :: removeDupAux (updKey t :: seen) ts := by
            simp [removeDupAux, hm, hk]
          have h2 : keepFirstByKey seen
                (t :: ts.filter (fun t => decide (t.octaneStatus = OctaneStatus.MODIFIED)))
              = t :: keepFirstByKey (updKey t :: seen)
                  (ts.filter (fun t => decide (t.octaneStatus = OctaneStatus.MODIFIED))) := by
            simp [keepFirstByKey, hk]
          have h3 : (t :: removeDupAux (updKey t :: seen) ts).filter
                (fun t => decide (t.octaneStatus = OctaneStatus.MODIFIED))
              = t :: (removeDupAux (updKey t :: seen) ts).filter
                  (fun t => decide (t.octaneStatus = OctaneStatus.MODIFIED)) := by
            simp [List.filter_cons, hm]
          rw [h1, h3, hfc, h2, ih (updKey t :: seen)]
      · have h1 : removeDupAux seen (t :: ts) = t :: removeDupAux seen ts := by
          simp [removeDupAux, hm]
        have h3 : (t :: removeDupAux seen ts).filter
              (fun t => decide (t.octaneStatus = OctaneStatus.MODIFIED))
            = (removeDupAux seen ts).filter
                (fun t => decide (t.octaneStatus = OctaneStatus.MODIFIED)) := by
          simp [List.filter_cons, hm]
        have hfc : (t :: ts).filter
              (fun t => decide (t.octaneStatus = OctaneStatus.MODIFIED))
            = ts.filter (fun t => decide (t.octaneStatus = OctaneStatus.MODIFIED)) := by
          simp [List.filter_cons, hm]
        rw [h1, h3, hfc, ih seen]

/-- The dedup pass never touches non-MODIFIED tests. -/
theorem removeDupAux_filter_not_mod (ts : List AutomatedTest) :
    ∀ seen : List String,
      (removeDupAux seen ts).filter
          (fun t => !decide (t.octaneStatus = OctaneStatus.MODIFIED))
        = ts.filter (fun t => !decide (t.octaneStatus = OctaneStatus.MODIFIED)) := by
  induction ts with
  | nil => intro seen; rfl
  | cons t ts ih =>
      intro seen
      by_cases hm : t.octaneStatus = OctaneStatus.MODIFIED
      · have hfc : (t :: ts).filter
              (fun t => !decide (t.octaneStatus = OctaneStatus.MODIFIED))
            = ts.filter (fun t => !decide (t.octaneStatus = OctaneStatus.MODIFIED)) := by
          simp [List.filter_cons, hm]
        by_cases hk : updKey t ∈ seen
        · have h1 : removeDupAux seen (t :: ts) = removeDupAux (updKey t :: seen) ts := by
            simp [removeDupAux, hm, hk]
          rw [h1, hfc, ih (updKey t :: seen)]
        · have h1 : removeDupAux seen (t :: ts)
              = t :: removeDupAux (updKey t :: seen) ts := by
            simp [removeDupAux, hm, hk]
          have h3 : (t :: removeDupAux (updKey t :: seen) ts).filter
                (fun t => !decide (t.octaneStatus = OctaneStatus.MODIFIED))
              = (removeDupAux (updKey t :: seen) ts).filter
                  (fun t => !decide (t.octaneStatus = OctaneStatus.MODIFIED)) := by
            simp [List.filter_cons, hm]
          rw [h1, h3, hfc, ih (updKey t :: seen)]
      · have h1 : removeDupAux seen (t :: ts) = t :: removeDupAux seen ts := by
          simp [removeDupAux, hm]
        have h3 : (t :: removeDupAux seen ts).filter
              (fun t => !decide (t.octaneStatus = OctaneStatus.MODIFIED))
            = t :: (removeDupAux seen ts).filter
                (fun t => !decide (t.octaneStatus = OctaneStatus.MODIFIED)) := by
          simp [List.filter_cons, hm]
        have hfc : (t :: ts).filter
              (fun t => !decide (t.octaneStatus = OctaneStatus.MODIFIED))
            = t :: ts.filter (fun t => !decide (t.octaneStatus = OctaneStatus.MODIFIED)) := by
          simp [List.filter_cons, hm]
        rw [h1, h3, hfc, ih seen]

/-- Keys of a keep-first pass are distinct and avoid the carried set. -/
theorem keepFirstByKey_nodup (l : List AutomatedTest) :
    ∀ seen : List String,
      ((keepFirstByKey seen l).map updKey).Nodup ∧
        ∀ k ∈ (keepFirstByKey seen l).map updKey, k ∉ seen := by
  induction l with
  | nil =>
      intro seen
      constructor
      · simp [keepFirstByKey]
      · simp [keepFirstByKey]
  | cons t ts ih =>
      intro seen
      by_cases hk : updKey t ∈ seen
      · simpa only [keepFirstByKey, hk, if_true] using ih seen
      · obtain ⟨hnd, havoid⟩ := ih (updKey t :: seen)
        simp only [keepFirstByKey, hk, if_neg, not_false_iff, List.map_cons]
        constructor
        · refine List.nodup_cons.mpr ⟨?_, hnd⟩
          intro hc
          exact havoid _ hc (List.mem_cons_self _ _)
        · intro k hkmem
          rcases List.mem_cons.mp hkmem with rfl | hkm
          · exact hk
          · intro hcs
            exact havoid _ hkm (List.mem_cons_of_mem _ hcs)

/-! ### Deleted-action dispatch — `src/test/MbtDataPrepConverter.ts`
lines 386–408 (`dispatchDeletedActions`) -/

/-- Octane `{ id, type }` reference object. -/
structure ListNodeRef where
  id : String
  type : String
deriving DecidableEq

/-- `UnitBody` — REST payload for unit create/update; `none` models JS
`null`/absent. -/
structure UnitBody where
  id : Option String := none
  name : Option String := none
  repository_path : Option String := none
  automation_status : Option ListNodeRef := none
  test_runner : Option ListNodeRef := none
deriving DecidableEq

/-- The `automation_status` reference the dispatcher writes for deleted
actions. -/
def notAutomatedRef : ListNodeRef :=
  { id := "list_node.automation_status.not_automated", type := "list_node" }

/-- Remote calls the dispatcher can issue against the unit collection
(REST create / update / delete verbs). -/
inductive RemoteOp
  | createUnits (units : List UnitBody)
  | updateUnits (units : List UnitBody)
  | deleteUnits (units : List UnitBody)
deriving DecidableEq

/-- Whether a remote call is a delete. -/
def RemoteOp.isDelete : RemoteOp → Bool
  | .deleteUnits _ => true
  | _ => false

/-- The archival body built for one deleted action
(`src/test/MbtDataPrepConverter.ts` lines 396–401). -/
def archivedUnitBody (_a : UftoTestAction) (i : String) : UnitBody :=
  { id := some i,
    repository_path := none,
    automation_status := some notAutomatedRef,
    test_runner := none }

/-- Embedding of `dispatchDeletedActions`
(`src/test/MbtDataPrepConverter.ts` lines 386–408): actions without an id
are skipped (logged only), the rest are turned into archival update
bodies, and a single `updateUnits` call is issued; no delete call exists. -/
def dispatchDeletedActions (deletedActions : List UftoTestAction) : List RemoteOp :=
  if deletedActions.length ≠ 0 then
    [RemoteOp.updateUnits (deletedActions.filterMap (fun a =>
      match a.id with
      | none => none
      | some i => some (archivedUnitBody a i)))]
  else []

/-- Concrete MODIFIED test "b_c" in package "a": its key is "a_b_c". -/
def exColA : AutomatedTest :=
  { name := "b_c", packageName := "a", octaneStatus := OctaneStatus.MODIFIED }

/-- Concrete MODIFIED test "c" in package "a_b": its key is also "a_b_c". -/
def exColB : AutomatedTest :=
  { name := "c", packageName := "a_b", octaneStatus := OctaneStatus.MODIFIED }

end FtIntegration

open FtIntegration

/-- **C8.** CSV value escaping: `escapeCsvVal` maps `va"lue` to
`"va""lue"` and `"quoted"` to `quoted`; in general it strips one pair of
wrapping quotes, doubles internal quotes, and re-wraps exactly when the
escaped value still contains a comma, quote, LF or CR. -/
theorem escapeCsvVal_spec :
    escapeCsvVal "va\"lue".data = "\"va\"\"lue\"".data ∧
    escapeCsvVal "\"quoted\"".data = "quoted".data ∧
    ∀ v : List Char,
      escapeCsvVal v =
        specRewrapIfSpecial (specDoubleInternalQuotes (specStripWrappingQuotes v)) := by
  refine ⟨by decide, by decide, ?_⟩
  intro v
  unfold escapeCsvVal specRewrapIfSpecial specStripWrappingQuotes
  rw [← hasCsvSpecialChar_eq_spec]
  by_cases h2 : strContainsChar
      (if startsWithQuote v && endsWithQuote v then (v.drop 1).dropLast else v) '"' = true
  · simp only [h2, if_true]
    rfl
  · rw [Bool.not_eq_true] at h2
    simp only [h2, Bool.false_eq_true, if_false]
    rw [show specDoubleInternalQuotes
          (if startsWithQuote v && endsWithQuote v then (v.drop 1).dropLast else v)
        = (if startsWithQuote v && endsWithQuote v then (v.drop 1).dropLast else v) from
      doubleQuotesJs_of_not_contains _ h2]

/-- **C9.** MODIFIED-test dedup keys on the concatenation
`packageName ++ "_" ++ name`: after the pass, the keys of MODIFIED tests
are unique, the first-encountered MODIFIED test per key is kept and later
ones are dropped, non-MODIFIED tests are untouched; two distinct
`(packageName, name)` pairs whose concatenations collide ("a"/"b_c" vs
"a_b"/"c") are treated as duplicates and the later one is dropped. -/
theorem removeTestDuplicated_spec :
    (∀ tests : List AutomatedTest,
      (((removeTestDuplicatedForUpdateTests tests).filter
          (fun t => decide (t.octaneStatus = OctaneStatus.MODIFIED))).map updKey).Nodup ∧
      (removeTestDuplicatedForUpdateTests tests).filter
          (fun t => decide (t.octaneStatus = OctaneStatus.MODIFIED))
        = keepFirstByKey []
            (tests.filter (fun t => decide (t.octaneStatus = OctaneStatus.MODIFIED))) ∧
      (removeTestDuplicatedForUpdateTests tests).filter
          (fun t => !decide (t.octaneStatus = OctaneStatus.MODIFIED))
        = tests.filter (fun t => !decide (t.octaneStatus = OctaneStatus.MODIFIED))) ∧
    removeTestDuplicatedForUpdateTests [exColA, exColB] = [exColA] := by
  refine ⟨fun tests => ⟨?_, ?_, ?_⟩, by decide⟩
  · rw [removeTestDuplicatedForUpdateTests, removeDupAux_filter_mod]
    exact (keepFirstByKey_nodup _ []).1
  · exact removeDupAux_filter_mod tests []
  · exact removeDupAux_filter_not_mod tests []

/-- **C10 (counterexample).** The claimed identity
`escapeCsvVal ('"' ++ x ++ '"') = escapeCsvVal x` fails at `x = "\""`:
the left side is `""""` while the right side is the empty string. -/
theorem escapeCsvVal_wrap_counterexample :
    escapeCsvVal ('"' :: ['"'] ++ ['"']) ≠ escapeCsvVal ['"'] := by
  decide

/-- **C10 (amended).** Wrapping a value in one extra pair of double quotes
is invisible to `escapeCsvVal` — provided the value does not already both
start and end with a double quote (a single `"` counts as both); in that
excluded case the extra stripping changes the result. -/
theorem escapeCsvVal_wrap_invariant (x : List Char)
    (h : ¬(startsWithQuote x = true ∧ endsWithQuote x = true)) :
    escapeCsvVal ('"' :: x ++ ['"']) = escapeCsvVal x := by
  have h1 : startsWithQuote ('"' :: x ++ ['"']) = true := rfl
  have h2 : endsWithQuote ('"' :: x ++ ['"']) = true := by
    unfold endsWithQuote
    rw [show ('"' :: x ++ ['"']) = ('"' :: x) ++ ['"'] from rfl,
      List.getLast?_concat]
    decide
  have h3 : (startsWithQuote x && endsWithQuote x) = false := by
    cases hs : startsWithQuote x <;> cases he : endsWithQuote x <;> simp_all
  have hstrip : (('"' :: x ++ ['"']).drop 1).dropLast = x := by
    rw [show ('"' :: x ++ ['"']).drop 1 = x ++ ['"'] from rfl, List.dropLast_concat]
  unfold escapeCsvVal
  rw [h1, h2, h3]
  simp [hstrip]

/-- Witness for `escapeCsvVal_wrap_invariant` at `x = "a"`. -/
theorem escapeCsvVal_wrap_invariant_witness :
    ¬(startsWithQuote "a".data = true ∧ endsWithQuote "a".data = true) ∧
      escapeCsvVal ('"' :: "a".data ++ ['"']) = escapeCsvVal "a".data :=
  ⟨by decide, escapeCsvVal_wrap_invariant "a".data (by decide)⟩

namespace FtIntegration

/-- The per-action archival payload builder used by
`dispatchDeletedActions`. -/
def archivalPayload (deletedActions : List UftoTestAction) : List UnitBody :=
  deletedActions.filterMap (fun a =>
    match a.id with
    | none => none
    | some i => some (archivedUnitBody a i))

/-- `dispatchDeletedActions` in terms of the payload builder. -/
theorem dispatchDeletedActions_eq (deletedActions : List UftoTestAction) :
    dispatchDeletedActions deletedActions
      = if deletedActions.length ≠ 0
        then [RemoteOp.updateUnits (archivalPayload deletedActions)] else [] := rfl

/-- Every body in the archival payload comes from an id-carrying action. -/
theorem mem_archivalPayload (deletedActions : List UftoTestAction)
    (u : UnitBody) (hu : u ∈ archivalPayload deletedActions) :
    ∃ a ∈ deletedActions, ∃ i, a.id = some i ∧ u = archivedUnitBody a i := by
  obtain ⟨a, ha, hfa⟩ := List.mem_filterMap.mp hu
  refine ⟨a, ha, ?_⟩
  cases hid : a.id with
  | none => rw [hid] at hfa; cases hfa
  | some i =>
      rw [hid] at hfa
      exact ⟨i, rfl, (Option.some_injective _ hfa).symm⟩

/-- Each id-carrying action contributes its archival body. -/
theorem archivalPayload_mem (deletedActions : List UftoTestAction)
    (a : UftoTestAction) (ha : a ∈ deletedActions) (i : String)
    (hid : a.id = some i) :
    archivedUnitBody a i ∈ archivalPayload deletedActions :=
  List.mem_filterMap.mpr ⟨a, ha, by rw [hid]⟩

/-- One archival body per id-carrying action. -/
theorem archivalPayload_length (deletedActions : List UftoTestAction) :
    (archivalPayload deletedActions).length
      = (deletedActions.filter (fun a => a.id.isSome)).length := by
  induction deletedActions with
  | nil => rfl
  | cons a as ih =>
      cases hid : a.id with
      | none =>
          simp only [archivalPayload, List.filterMap_cons, hid, List.filter_cons,
            Option.isSome_none, Bool.false_eq_true, if_false]
          exact ih
      | some i =>
          simp only [archivalPayload, List.filterMap_cons, hid, List.filter_cons,
            Option.isSome_some, if_true, List.length_cons]
          exact congrArg Nat.succ ih

end FtIntegration

/-- **C6.** Archival instead of deletion: dispatching DELETED actions
never issues a remote delete; at most one remote call is made, it is an
`updateUnits`, its payload has one archival body per id-carrying action
(actions without a remote id are skipped), each body nulls the
repository path and the test-runner link and sets the automation status
to not-automated, and each id-carrying action's body is present. -/
theorem dispatchDeletedActions_archives (deletedActions : List UftoTestAction) :
    (∀ op ∈ dispatchDeletedActions deletedActions, op.isDelete = false) ∧
    (dispatchDeletedActions deletedActions).length ≤ 1 ∧
    (∀ us, RemoteOp.updateUnits us ∈ dispatchDeletedActions deletedActions →
      us.length = (deletedActions.filter (fun a => a.id.isSome)).length ∧
      ∀ u ∈ us, u.repository_path = none ∧ u.test_runner = none ∧
        u.automation_status = some notAutomatedRef ∧
        ∃ a ∈ deletedActions, ∃ i, a.id = some i ∧ u = archivedUnitBody a i) ∧
    (∀ a ∈ deletedActions, ∀ i, a.id = some i →
      ∃ us, RemoteOp.updateUnits us ∈ dispatchDeletedActions deletedActions ∧
        archivedUnitBody a i ∈ us) := by
  rw [dispatchDeletedActions_eq]
  by_cases hne : deletedActions.length ≠ 0
  · rw [if_pos hne]
    refine ⟨?_, by simp, ?_, ?_⟩
    · intro op hop
      rcases List.mem_singleton.mp hop with rfl
      rfl
    · intro us hus
      rcases List.mem_singleton.mp hus with heq
      have hpay : us = archivalPayload deletedActions := by
        injection heq with h
      subst hpay
      refine ⟨archivalPayload_length deletedActions, ?_⟩
      intro u hu
      obtain ⟨a, ha, i, hid, rfl⟩ := mem_archivalPayload deletedActions u hu
      exact ⟨rfl, rfl, rfl, a, ha, i, hid, rfl⟩
    · intro a ha i hid
      exact ⟨archivalPayload deletedActions, List.mem_singleton.mpr rfl,
        archivalPayload_mem deletedActions a ha i hid⟩
  · rw [if_neg hne]
    refine ⟨by simp, by simp, by simp, ?_⟩
    intro a ha i _
    rw [not_ne_iff, List.length_eq_zero] at hne
    subst hne
    cases ha

namespace FtIntegration

/-- Concrete DELETED action carrying a remote id. -/
def exDelA : UftoTestAction :=
  { name := "Action1", id := some "7", octaneStatus := OctaneStatus.DELETED }

/-- Concrete DELETED action without a remote id (skipped by dispatch). -/
def exDelB : UftoTestAction :=
  { name := "Action2", octaneStatus := OctaneStatus.DELETED }

end FtIntegration

/-- Witness for `dispatchDeletedActions_archives` on a two-action batch
(one action with id "7", one without). -/
theorem dispatchDeletedActions_archives_witness :
    (archivedUnitBody exDelA "7").repository_path = none ∧
      (archivedUnitBody exDelA "7").test_runner = none ∧
      (archivedUnitBody exDelA "7").automation_status = some notAutomatedRef ∧
      ∃ a ∈ [exDelA, exDelB], ∃ i, a.id = some i ∧
        archivedUnitBody exDelA "7" = archivedUnitBody a i :=
  ((dispatchDeletedActions_archives [exDelA, exDelB]).2.2.1
      [archivedUnitBody exDelA "7"] (by decide)).2
    (archivedUnitBody exDelA "7") (by decide)

namespace FtIntegration

/-! ### SCM change wrapper — `src/discovery/ScmChangesWrapper.ts` -/

/-- Git diff op classification (`DiffEntry.op`). -/
inductive DiffOp
  | ADD
  | DEL
  | MODIFY
  | RENAME
deriving DecidableEq

/-- `DiffEntry` (lines 46–52); `fromPath`/`toPath` embed the TS fields
`from`/`to` (`from` is reserved in Lean); the sentinel `"dev/null"` marks
a side with no tree entry, exactly as in the source. -/
structure DiffEntry where
  fromPath : String
  toPath : String
  fromId : Option String
  toId : Option String
  op : Option DiffOp := none
deriving DecidableEq, Inhabited

/-- ASCII lower-casing, modelling the `/i` regex flags. -/
def toLowerStr (s : String) : String :=
  String.mk (s.data.map Char.toLower)

/-- `b` is a suffix of `a`. -/
def strEndsWith (a b : String) : Bool :=
  b.data.isSuffixOf a.data

/-- `path.basename`: the part after the last `/`. -/
def basenameStr (s : String) : String :=
  String.mk ((s.data.reverse.takeWhile (fun c => c != '/')).reverse)

/-- `matchesFilter`'s relevant path (lines 160–165): the `from` path for
a pure delete, the `to` path otherwise. -/
def relevantPathOf (e : DiffEntry) : String :=
  if e.fromPath ≠ "dev/null" ∧ e.toPath = "dev/null" then e.fromPath else e.toPath

/-- The fixed allow-list (lines 129–130): extensions `.tsp`/`.st` and
filenames `ACTIONS.XML`/`Resource.MTR`, case-insensitive, for every tool
type. -/
def allowedDiffName (filename : String) : Bool :=
  let lower := toLowerStr filename
  strEndsWith lower ".tsp" || strEndsWith lower ".st"
    || lower == "actions.xml" || lower == "resource.mtr"

/-- `matchesFilter` (lines 160–173): keep the root marker `"."` and any
path whose basename is in the allow-list. -/
def matchesFilter (entry : DiffEntry) : Bool :=
  let relevantPath := relevantPathOf entry
  if relevantPath = "." then true
  else allowedDiffName (basenameStr relevantPath)

/-- Delete-shaped raw entry (lines 209–210). -/
def isDeleteEntry (e : DiffEntry) : Bool :=
  e.fromPath != "dev/null" && e.toPath == "dev/null"

/-- Add-shaped raw entry (line 211). -/
def isAddEntry (e : DiffEntry) : Bool :=
  e.fromPath == "dev/null" && e.toPath != "dev/null"

/-- `adds.find(add => add.toId === del.fromId && !usedAdds.has(add))`
(lines 223–225), carrying the position `j` so that the JS
object-identity set `usedAdds` can be modelled as a set of indices. -/
def findUnusedMatchAux (used : List Nat) (target : Option String) :
    Nat → List DiffEntry → Option (Nat × DiffEntry)
  | _, [] => none
  | j, a :: rest =>
    if a.toId = target ∧ j ∉ used then some (j, a)
    else findUnusedMatchAux used target (j + 1) rest

/-- The rename entry built at lines 229–235. -/
def mkRenameEntry (d a : DiffEntry) : DiffEntry :=
  { fromPath := d.fromPath, toPath := a.toPath,
    fromId := d.fromId, toId := a.toId, op := some DiffOp.RENAME }

/-- The delete loop of lines 222–239: each delete either pairs with the
first unused add of equal content hash (emitting a RENAME) or stays DEL. -/
def pairDeletes (adds : List DiffEntry) :
    List DiffEntry → List Nat → List DiffEntry × List Nat
  | [], used => ([], used)
  | d :: ds, used =>
    match findUnusedMatchAux used d.fromId 0 adds with
    | some ja =>
        let r := pairDeletes adds ds (ja.1 :: used)
        (mkRenameEntry d ja.2 :: r.1, r.2)
    | none =>
        let r := pairDeletes adds ds used
        ({ d with op := some DiffOp.DEL } :: r.1, r.2)

/-- The `deletes` bucket (lines 203–216). -/
def diffDeletes (results : List DiffEntry) : List DiffEntry :=
  results.filter isDeleteEntry

/-- The `adds` bucket (lines 203–216). -/
def diffAdds (results : List DiffEntry) : List DiffEntry :=
  results.filter isAddEntry

/-- The `others` bucket (lines 203–216). -/
def diffOthers (results : List DiffEntry) : List DiffEntry :=
  results.filter (fun e => !(isDeleteEntry e) && !(isAddEntry e))

/-- The adds left unconsumed by the rename pairing, kept as ADD
(lines 242–246), via their positions. -/
def remainingAdds (results : List DiffEntry) : List DiffEntry :=
  ((diffAdds results).enum.filter
      (fun ja => !(decide (ja.1 ∈ (pairDeletes (diffAdds results)
        (diffDeletes results) []).2)))).map
    (fun ja => { ja.2 with op := some DiffOp.ADD })

/-- The post-processing of `getDiffEntries` (lines 202–257): categorize
into deletes/adds/others, pair renames greedily, keep unmatched adds as
ADD and everything else as MODIFY. -/
def pairRenames (results : List DiffEntry) : List DiffEntry :=
  (pairDeletes (diffAdds results) (diffDeletes results) []).1
    ++ remainingAdds results
    ++ (diffOthers results).map (fun e => { e with op := some DiffOp.MODIFY })

/-- `getDiffEntries` modulo the filesystem walk (lines 125–257): the walk
emits one raw entry per changed path, the `reduce` keeps exactly the
entries passing `matchesFilter`, and renames are then paired. -/
def getDiffEntriesModel (raw : List DiffEntry) : List DiffEntry :=
  pairRenames (raw.filter matchesFilter)

/-- One part of the `Diff.diffLines` output consumed by
`calculateSimilarity`. -/
structure DiffPart where
  value : String
  added : Bool := false
  removed : Bool := false
deriving DecidableEq

/-- `part.value.split('\n').length - 1`: the number of newline chars. -/
def countLinesJs (s : String) : Nat :=
  s.data.count '\n'

/-- Scoring loop of `calculateSimilarity` (lines 270–284): the
unchanged-line fraction of the line-diff parts (0 when no lines). -/
def calculateSimilarity (differences : List DiffPart) : ℚ :=
  let totalLines := (differences.map (fun p => countLinesJs p.value)).sum
  let unchangedLines := ((differences.filter
      (fun p => !p.added && !p.removed)).map (fun p => countLinesJs p.value)).sum
  if 0 < totalLines then (unchangedLines : ℚ) / (totalLines : ℚ) else 0

/-- `ScmAffectedFileWrapper.changeType` values. -/
inductive ChangeType
  | ADD
  | DELETE
  | EDIT
deriving DecidableEq

/-- `ScmAffectedFileWrapper` (lines 38–44). -/
structure ScmAffectedFileWrapper where
  newPath : String
  oldPath : Option String
  changeType : ChangeType
  oldId : String
  newId : String
deriving DecidableEq

/-- Per-entry classification of `wrapScmChanges` (lines 70–116).
`oldRef`/`newRef` are the resolved commit ids (`git.resolveRef`) and
`partsOf` abstracts reading and line-diffing the two blobs (a blob-read
failure is the empty part list, which scores 0). -/
def classifyDiff (oldRef newRef : String) (partsOf : DiffEntry → List DiffPart)
    (diff : DiffEntry) : ScmAffectedFileWrapper :=
  match diff.op with
  | some DiffOp.ADD =>
      { newPath := diff.toPath, oldPath := none, changeType := ChangeType.ADD,
        oldId := "", newId := diff.toId.getD "" }
  | some DiffOp.DEL =>
      { newPath := diff.fromPath, oldPath := some diff.fromPath,
        changeType := ChangeType.DELETE, oldId := diff.fromId.getD "", newId := "" }
  | some DiffOp.RENAME =>
      { newPath := diff.toPath, oldPath := some diff.fromPath,
        changeType := ChangeType.EDIT, oldId := oldRef, newId := newRef }
  | _ =>
      if (1 : ℚ)/2 ≤ calculateSimilarity (partsOf diff) then
        { newPath := diff.toPath, oldPath := some diff.fromPath,
          changeType := ChangeType.EDIT, oldId := oldRef, newId := newRef }
      else
        { newPath := diff.toPath, oldPath := some diff.fromPath,
          changeType := ChangeType.EDIT, oldId := diff.toId.getD "",
          newId := diff.toId.getD "" }

/-- `wrapScmChanges` (lines 59–122): classify every post-processed diff
entry, in order. -/
def wrapScmChanges (oldRef newRef : String) (partsOf : DiffEntry → List DiffPart)
    (raw : List DiffEntry) : List ScmAffectedFileWrapper :=
  (getDiffEntriesModel raw).map (classifyDiff oldRef newRef partsOf)

end FtIntegration

namespace FtIntegration

/-- Concrete MODIFY-type diff entry. -/
def exModifyEntry : DiffEntry :=
  { fromPath := "Test1/Test1.tsp", toPath := "Test1/Test1.tsp",
    fromId := some "aaa", toId := some "bbb", op := some DiffOp.MODIFY }

/-- A blob-diff oracle whose single part is unchanged (similarity 1). -/
def exPartsHigh : DiffEntry → List DiffPart :=
  fun _ => [{ value := "line1\nline2\n" }]

end FtIntegration

/-- **C3.** Similarity-threshold reclassification: a MODIFY-type diff
entry with unchanged-line fraction ≥ 0.5 becomes a rename-like EDIT with
`oldPath` set and the resolved commit ids, while a fraction < 0.5 becomes
an in-place EDIT whose `oldId` equals its `newId` (both the new blob id). -/
theorem similarity_threshold_classification
    (oldRef newRef : String) (partsOf : DiffEntry → List DiffPart)
    (e : DiffEntry) (hop : e.op = some DiffOp.MODIFY) :
    ((1 : ℚ)/2 ≤ calculateSimilarity (partsOf e) →
      classifyDiff oldRef newRef partsOf e
        = { newPath := e.toPath, oldPath := some e.fromPath,
            changeType := ChangeType.EDIT, oldId := oldRef, newId := newRef }) ∧
    (calculateSimilarity (partsOf e) < (1 : ℚ)/2 →
      classifyDiff oldRef newRef partsOf e
        = { newPath := e.toPath, oldPath := some e.fromPath,
            changeType := ChangeType.EDIT, oldId := e.toId.getD "",
            newId := e.toId.getD "" } ∧
      (classifyDiff oldRef newRef partsOf e).oldId
        = (classifyDiff oldRef newRef partsOf e).newId) ∧
    (∀ raw : List DiffEntry, e ∈ getDiffEntriesModel raw →
      classifyDiff oldRef newRef partsOf e
        ∈ wrapScmChanges oldRef newRef partsOf raw) := by
  have hcd : classifyDiff oldRef newRef partsOf e
      = if (1 : ℚ)/2 ≤ calculateSimilarity (partsOf e) then
          { newPath := e.toPath, oldPath := some e.fromPath,
            changeType := ChangeType.EDIT, oldId := oldRef, newId := newRef }
        else
          { newPath := e.toPath, oldPath := some e.fromPath,
            changeType := ChangeType.EDIT, oldId := e.toId.getD "",
            newId := e.toId.getD "" } := by
    unfold classifyDiff
    rw [hop]
  refine ⟨?_, ?_, ?_⟩
  · intro hsim
    rw [hcd, if_pos hsim]
  · intro hsim
    have hns : ¬ ((1 : ℚ)/2 ≤ calculateSimilarity (partsOf e)) := not_le.mpr hsim
    rw [hcd, if_neg hns]
    exact ⟨rfl, rfl⟩
  · intro raw hmem
    exact List.mem_map_of_mem _ hmem

/-- Witness for `similarity_threshold_classification` on a MODIFY entry
whose diff parts are fully unchanged (fraction 1 ≥ 0.5). -/
theorem similarity_threshold_classification_witness :
    classifyDiff "oldref" "newref" exPartsHigh exModifyEntry
      = { newPath := "Test1/Test1.tsp", oldPath := some "Test1/Test1.tsp",
          changeType := ChangeType.EDIT, oldId := "oldref", newId := "newref" } :=
  (similarity_threshold_classification "oldref" "newref" exPartsHigh
      exModifyEntry rfl).1 (by
    have hc : countLinesJs "line1\nline2\n" = 2 := by decide
    unfold calculateSimilarity exPartsHigh
    simp only [List.map_cons, List.map_nil, List.filter_cons, List.filter_nil,
      Bool.not_false, Bool.and_self, if_true, List.sum_cons, List.sum_nil, hc]
    norm_num)

namespace FtIntegration

/-- When the unused-match search fails, every add with the target hash is
already used. -/
theorem findUnusedMatchAux_none (used : List Nat) (target : Option String) :
    ∀ (l : List DiffEntry) (k : Nat),
      findUnusedMatchAux used target k l = none →
      ∀ i a, l[i]? = some a → a.toId = target → (k + i) ∈ used := by
  intro l
  induction l with
  | nil =>
      intro k _ i a hget
      rw [List.getElem?_nil] at hget
      cases hget
  | cons b rest ih =>
      intro k hnone i a hget htid
      unfold findUnusedMatchAux at hnone
      by_cases hcond : b.toId = target ∧ k ∉ used
      · rw [if_pos hcond] at hnone
        cases hnone
      · rw [if_neg hcond] at hnone
        cases i with
        | zero =>
            rw [List.getElem?_cons_zero] at hget
            have hab : b = a := Option.some_injective _ hget
            subst hab
            rw [Nat.add_zero]
            by_contra hku
            exact hcond ⟨htid, hku⟩
        | succ i' =>
            rw [List.getElem?_cons_succ] at hget
            have h := ih (k + 1) hnone i' a hget htid
            have harith : k + (i' + 1) = k + 1 + i' := by omega
            rw [harith]
            exact h

/-- When the unused-match search succeeds, it returns an unused position
holding an add with the target hash. -/
theorem findUnusedMatchAux_some (used : List Nat) (target : Option String) :
    ∀ (l : List DiffEntry) (k j : Nat) (a : DiffEntry),
      findUnusedMatchAux used target k l = some (j, a) →
      a ∈ l ∧ a.toId = target ∧ j ∉ used ∧ k ≤ j ∧ l[j - k]? = some a := by
  intro l
  induction l with
  | nil =>
      intro k j a h
      unfold findUnusedMatchAux at h
      cases h
  | cons b rest ih =>
      intro k j a h
      unfold findUnusedMatchAux at h
      by_cases hcond : b.toId = target ∧ k ∉ used
      · rw [if_pos hcond] at h
        injection h with hpair
        obtain ⟨hk, hb⟩ := Prod.mk.inj hpair
        subst hk
        subst hb
        exact ⟨List.mem_cons_self _ _, hcond.1, hcond.2, le_refl _,
          by rw [Nat.sub_self, List.getElem?_cons_zero]⟩
      · rw [if_neg hcond] at h
        obtain ⟨hmem, hta, hju, hkj, hget⟩ := ih (k + 1) j a h
        refine ⟨List.mem_cons_of_mem _ hmem, hta, hju, by omega, ?_⟩
        have hsub : j - k = (j - (k + 1)) + 1 := by omega
        rw [hsub, List.getElem?_cons_succ]
        exact hget

/-- The used-index set only grows across the delete loop. -/
theorem pairDeletes_used_mono (adds : List DiffEntry) :
    ∀ (ds : List DiffEntry) (used : List Nat),
      ∀ x ∈ used, x ∈ (pairDeletes adds ds used).2 := by
  intro ds
  induction ds with
  | nil => intro used x hx; exact hx
  | cons d ds ih =>
      intro used x hx
      cases hf : findUnusedMatchAux used d.fromId 0 adds with
      | some ja =>
          have : (pairDeletes adds (d :: ds) used).2
              = (pairDeletes adds ds (ja.1 :: used)).2 := by
            simp [pairDeletes, hf]
          rw [this]
          exact ih (ja.1 :: used) x (List.mem_cons_of_mem _ hx)
      | none =>
          have : (pairDeletes adds (d :: ds) used).2
              = (pairDeletes adds ds used).2 := by
            simp [pairDeletes, hf]
          rw [this]
          exact ih used x hx

/-- Every final used index was already used or matches some delete. -/
theorem pairDeletes_used_src (adds : List DiffEntry) :
    ∀ (ds : List DiffEntry) (used : List Nat),
      ∀ j ∈ (pairDeletes adds ds used).2,
        j ∈ used ∨ ∃ d ∈ ds, ∃ a, adds[j]? = some a ∧ a.toId = d.fromId := by
  intro ds
  induction ds with
  | nil => intro used j hj; exact Or.inl hj
  | cons d ds ih =>
      intro used j hj
      cases hf : findUnusedMatchAux used d.fromId 0 adds with
      | some ja =>
          have heq : (pairDeletes adds (d :: ds) used).2
              = (pairDeletes adds ds (ja.1 :: used)).2 := by
            simp [pairDeletes, hf]
          rw [heq] at hj
          obtain ⟨hmem, hta, hju, hkj, hget⟩ :=
            findUnusedMatchAux_some used d.fromId adds 0 ja.1 ja.2 (by
              rw [hf])
          rcases ih (ja.1 :: used) j hj with hmem2 | ⟨d', hd', a', hget', hta'⟩
          · rcases List.mem_cons.mp hmem2 with rfl | hold
            · right
              refine ⟨d, List.mem_cons_self _ _, ja.2, ?_, hta⟩
              rw [Nat.sub_zero] at hget
              exact hget
            · exact Or.inl hold
          · exact Or.inr ⟨d', List.mem_cons_of_mem _ hd', a', hget', hta'⟩
      | none =>
          have heq : (pairDeletes adds (d :: ds) used).2
              = (pairDeletes adds ds used).2 := by
            simp [pairDeletes, hf]
          rw [heq] at hj
          rcases ih used j hj with hold | ⟨d', hd', a', hget', hta'⟩
          · exact Or.inl hold
          · exact Or.inr ⟨d', List.mem_cons_of_mem _ hd', a', hget', hta'⟩

end FtIntegration

namespace FtIntegration

/-- The delete loop only emits DEL- or RENAME-tagged entries. -/
theorem pairDeletes_ops (adds : List DiffEntry) :
    ∀ (ds : List DiffEntry) (used : List Nat),
      ∀ e ∈ (pairDeletes adds ds used).1,
        e.op = some DiffOp.DEL ∨ e.op = some DiffOp.RENAME := by
  intro ds
  induction ds with
  | nil => intro used e he; cases he
  | cons d ds ih =>
      intro used e he
      cases hf : findUnusedMatchAux used d.fromId 0 adds with
      | some ja =>
          have heq : (pairDeletes adds (d :: ds) used).1
              = mkRenameEntry d ja.2 :: (pairDeletes adds ds (ja.1 :: used)).1 := by
            simp [pairDeletes, hf]
          rw [heq] at he
          rcases List.mem_cons.mp he with rfl | he'
          · exact Or.inr rfl
          · exact ih (ja.1 :: used) e he'
      | none =>
          have heq : (pairDeletes adds (d :: ds) used).1
              = { d with op := some DiffOp.DEL } :: (pairDeletes adds ds used).1 := by
            simp [pairDeletes, hf]
          rw [heq] at he
          rcases List.mem_cons.mp he with rfl | he'
          · exact Or.inl rfl
          · exact ih used e he'

/-- Every DEL output comes from a delete in the batch, and every add
carrying its hash ends up used. -/
theorem pairDeletes_del (adds : List DiffEntry) :
    ∀ (ds : List DiffEntry) (used : List Nat),
      ∀ e ∈ (pairDeletes adds ds used).1, e.op = some DiffOp.DEL →
        (∃ d ∈ ds, e = { d with op := some DiffOp.DEL }) ∧
        ∀ i a, adds[i]? = some a → a.toId = e.fromId →
          i ∈ (pairDeletes adds ds used).2 := by
  intro ds
  induction ds with
  | nil => intro used e he; cases he
  | cons d ds ih =>
      intro used e he hop
      cases hf : findUnusedMatchAux used d.fromId 0 adds with
      | some ja =>
          have heq1 : (pairDeletes adds (d :: ds) used).1
              = mkRenameEntry d ja.2 :: (pairDeletes adds ds (ja.1 :: used)).1 := by
            simp [pairDeletes, hf]
          have heq2 : (pairDeletes adds (d :: ds) used).2
              = (pairDeletes adds ds (ja.1 :: used)).2 := by
            simp [pairDeletes, hf]
          rw [heq1] at he
          rcases List.mem_cons.mp he with rfl | he'
          · cases hop
          · obtain ⟨⟨d', hd', hde⟩, hall⟩ := ih (ja.1 :: used) e he' hop
            rw [heq2]
            exact ⟨⟨d', List.mem_cons_of_mem _ hd', hde⟩, hall⟩
      | none =>
          have heq1 : (pairDeletes adds (d :: ds) used).1
              = { d with op := some DiffOp.DEL } :: (pairDeletes adds ds used).1 := by
            simp [pairDeletes, hf]
          have heq2 : (pairDeletes adds (d :: ds) used).2
              = (pairDeletes adds ds used).2 := by
            simp [pairDeletes, hf]
          rw [heq1] at he
          rw [heq2]
          rcases List.mem_cons.mp he with rfl | he'
          · refine ⟨⟨d, List.mem_cons_self _ _, rfl⟩, ?_⟩
            intro i a hget hta
            have hiu : i ∈ used := by
              have := findUnusedMatchAux_none used d.fromId adds 0 hf i a hget hta
              simpa using this
            exact pairDeletes_used_mono adds ds used i hiu
          · obtain ⟨⟨d', hd', hde⟩, hall⟩ := ih used e he' hop
            exact ⟨⟨d', List.mem_cons_of_mem _ hd', hde⟩, hall⟩

/-- Every RENAME output pairs a delete and an add of equal content hash. -/
theorem pairDeletes_ren (adds : List DiffEntry) :
    ∀ (ds : List DiffEntry) (used : List Nat),
      ∀ e ∈ (pairDeletes adds ds used).1, e.op = some DiffOp.RENAME →
        e.fromId = e.toId ∧
        (∃ d ∈ ds, e.fromPath = d.fromPath ∧ e.fromId = d.fromId) ∧
        ∃ a ∈ adds, e.toPath = a.toPath ∧ e.toId = a.toId := by
  intro ds
  induction ds with
  | nil => intro used e he; cases he
  | cons d ds ih =>
      intro used e he hop
      cases hf : findUnusedMatchAux used d.fromId 0 adds with
      | some ja =>
          have heq1 : (pairDeletes adds (d :: ds) used).1
              = mkRenameEntry d ja.2 :: (pairDeletes adds ds (ja.1 :: used)).1 := by
            simp [pairDeletes, hf]
          rw [heq1] at he
          rcases List.mem_cons.mp he with rfl | he'
          · obtain ⟨hmem, hta, _, _, _⟩ :=
              findUnusedMatchAux_some used d.fromId adds 0 ja.1 ja.2 (by rw [hf])
            refine ⟨?_, ⟨d, List.mem_cons_self _ _, rfl, rfl⟩,
              ⟨ja.2, hmem, rfl, rfl⟩⟩
            show d.fromId = ja.2.toId
            exact hta.symm
          · obtain ⟨h1, ⟨d', hd', h2⟩, h3⟩ := ih (ja.1 :: used) e he' hop
            exact ⟨h1, ⟨d', List.mem_cons_of_mem _ hd', h2⟩, h3⟩
      | none =>
          have heq1 : (pairDeletes adds (d :: ds) used).1
              = { d with op := some DiffOp.DEL } :: (pairDeletes adds ds used).1 := by
            simp [pairDeletes, hf]
          rw [heq1] at he
          rcases List.mem_cons.mp he with rfl | he'
          · cases hop
          · obtain ⟨h1, ⟨d', hd', h2⟩, h3⟩ := ih used e he' hop
            exact ⟨h1, ⟨d', List.mem_cons_of_mem _ hd', h2⟩, h3⟩

/-- A delete whose hash matches no add at all stays DEL in the output. -/
theorem pairDeletes_del_stays (adds : List DiffEntry) :
    ∀ (ds : List DiffEntry) (used : List Nat) (d : DiffEntry),
      d ∈ ds → (∀ a ∈ adds, a.toId ≠ d.fromId) →
      { d with op := some DiffOp.DEL } ∈ (pairDeletes adds ds used).1 := by
  intro ds
  induction ds with
  | nil => intro used d hd; cases hd
  | cons d0 ds ih =>
      intro used d hd hnom
      cases hf : findUnusedMatchAux used d0.fromId 0 adds with
      | some ja =>
          have heq1 : (pairDeletes adds (d0 :: ds) used).1
              = mkRenameEntry d0 ja.2 :: (pairDeletes adds ds (ja.1 :: used)).1 := by
            simp [pairDeletes, hf]
          rw [heq1]
          rcases List.mem_cons.mp hd with rfl | hd'
          · obtain ⟨hmem, hta, _, _, _⟩ :=
              findUnusedMatchAux_some used d.fromId adds 0 ja.1 ja.2 (by rw [hf])
            exact absurd hta (hnom ja.2 hmem)
          · exact List.mem_cons_of_mem _ (ih (ja.1 :: used) d hd' hnom)
      | none =>
          have heq1 : (pairDeletes adds (d0 :: ds) used).1
              = { d0 with op := some DiffOp.DEL } :: (pairDeletes adds ds used).1 := by
            simp [pairDeletes, hf]
          rw [heq1]
          rcases List.mem_cons.mp hd with rfl | hd'
          · exact List.mem_cons_self _ _
          · exact List.mem_cons_of_mem _ (ih used d hd' hnom)

/-- If some delete still has an unused matching add, a RENAME is emitted. -/
theorem pairDeletes_ren_exists (adds : List DiffEntry) :
    ∀ (ds : List DiffEntry) (used : List Nat),
      (∃ d ∈ ds, ∃ j a, adds[j]? = some a ∧ a.toId = d.fromId ∧ j ∉ used) →
      ∃ e ∈ (pairDeletes adds ds used).1, e.op = some DiffOp.RENAME := by
  intro ds
  induction ds with
  | nil => intro used h; obtain ⟨d, hd, _⟩ := h; cases hd
  | cons d0 ds ih =>
      intro used h
      cases hf : findUnusedMatchAux used d0.fromId 0 adds with
      | some ja =>
          have heq1 : (pairDeletes adds (d0 :: ds) used).1
              = mkRenameEntry d0 ja.2 :: (pairDeletes adds ds (ja.1 :: used)).1 := by
            simp [pairDeletes, hf]
          rw [heq1]
          exact ⟨mkRenameEntry d0 ja.2, List.mem_cons_self _ _, rfl⟩
      | none =>
          have heq1 : (pairDeletes adds (d0 :: ds) used).1
              = { d0 with op := some DiffOp.DEL } :: (pairDeletes adds ds used).1 := by
            simp [pairDeletes, hf]
          rw [heq1]
          obtain ⟨d, hd, j, a, hget, hta, hju⟩ := h
          rcases List.mem_cons.mp hd with rfl | hd'
          · exfalso
            have := findUnusedMatchAux_none used d.fromId adds 0 hf j a hget hta
            rw [Nat.zero_add] at this
            exact hju this
          · obtain ⟨e, he, hop⟩ := ih used ⟨d, hd', j, a, hget, hta, hju⟩
            exact ⟨e, List.mem_cons_of_mem _ he, hop⟩

end FtIntegration

namespace FtIntegration

/-- Unconsumed adds are tagged ADD. -/
theorem remainingAdds_op (results : List DiffEntry) :
    ∀ e ∈ remainingAdds results, e.op = some DiffOp.ADD := by
  intro e he
  obtain ⟨ja, _, rfl⟩ := List.mem_map.mp he
  rfl

/-- Provenance of an unconsumed add: an unused position of the adds
bucket. -/
theorem mem_remainingAdds (results : List DiffEntry) (e : DiffEntry)
    (he : e ∈ remainingAdds results) :
    ∃ j a, (diffAdds results)[j]? = some a ∧
      j ∉ (pairDeletes (diffAdds results) (diffDeletes results) []).2 ∧
      e = { a with op := some DiffOp.ADD } := by
  unfold remainingAdds at he
  obtain ⟨ja, hja, rfl⟩ := List.mem_map.mp he
  obtain ⟨henum, hpred⟩ := List.mem_filter.mp hja
  refine ⟨ja.1, ja.2, List.mem_enum_iff_getElem?.mp henum, ?_, rfl⟩
  simpa using hpred

/-- An add at an unused position stays in the output as ADD. -/
theorem remainingAdds_mem (results : List DiffEntry) (j : Nat) (a : DiffEntry)
    (hget : (diffAdds results)[j]? = some a)
    (hju : j ∉ (pairDeletes (diffAdds results) (diffDeletes results) []).2) :
    { a with op := some DiffOp.ADD } ∈ remainingAdds results := by
  unfold remainingAdds
  refine List.mem_map.mpr ⟨(j, a), ?_, rfl⟩
  exact List.mem_filter.mpr ⟨List.mem_enum_iff_getElem?.mpr hget, by simpa using hju⟩

/-- Decomposition of `pairRenames` output membership into the three
blocks. -/
theorem mem_pairRenames (results : List DiffEntry) (e : DiffEntry)
    (he : e ∈ pairRenames results) :
    e ∈ (pairDeletes (diffAdds results) (diffDeletes results) []).1 ∨
    e ∈ remainingAdds results ∨
    ∃ x ∈ diffOthers results, e = { x with op := some DiffOp.MODIFY } := by
  unfold pairRenames at he
  rcases List.mem_append.mp he with h1 | h2
  · rcases List.mem_append.mp h1 with h1a | h1b
    · exact Or.inl h1a
    · exact Or.inr (Or.inl h1b)
  · obtain ⟨x, hx, rfl⟩ := List.mem_map.mp h2
    exact Or.inr (Or.inr ⟨x, hx, rfl⟩)

end FtIntegration

/-- **C4.** Content-hash rename pairing: in the output of the diff
post-processing, (a) no DEL entry shares its old hash with a surviving
ADD entry, (b) every RENAME joins a real delete and a real add of equal
content hash into one entry carrying the deleted path as `from` and the
added path as `to`, (c) a delete matched by some add always produces a
RENAME, (d) deletes with no matching add remain DELETE, (e) adds
matching no delete remain ADD, and (f) `wrapScmChanges` surfaces each
RENAME as one EDIT with `oldPath` the deleted path and `newPath` the
added path. -/
theorem rename_pairing_spec (results : List DiffEntry) :
    (∀ e₁ ∈ pairRenames results, ∀ e₂ ∈ pairRenames results,
      e₁.op = some DiffOp.DEL → e₂.op = some DiffOp.ADD →
      e₁.fromId ≠ e₂.toId) ∧
    (∀ e ∈ pairRenames results, e.op = some DiffOp.RENAME →
      e.fromId = e.toId ∧
      (∃ d ∈ results, isDeleteEntry d = true ∧
        e.fromPath = d.fromPath ∧ e.fromId = d.fromId) ∧
      (∃ a ∈ results, isAddEntry a = true ∧
        e.toPath = a.toPath ∧ e.toId = a.toId)) ∧
    ((∃ d ∈ results, isDeleteEntry d = true ∧
        ∃ a ∈ results, isAddEntry a = true ∧ a.toId = d.fromId) →
      ∃ e ∈ pairRenames results, e.op = some DiffOp.RENAME) ∧
    (∀ d ∈ results, isDeleteEntry d = true →
      (∀ a ∈ results, isAddEntry a = true → a.toId ≠ d.fromId) →
      { d with op := some DiffOp.DEL } ∈ pairRenames results) ∧
    (∀ a ∈ results, isAddEntry a = true →
      (∀ d ∈ results, isDeleteEntry d = true → d.fromId ≠ a.toId) →
      { a with op := some DiffOp.ADD } ∈ pairRenames results) ∧
    (∀ (oldRef newRef : String) (partsOf : DiffEntry → List DiffPart),
      ∀ e ∈ pairRenames results, e.op = some DiffOp.RENAME →
      classifyDiff oldRef newRef partsOf e
        = { newPath := e.toPath, oldPath := some e.fromPath,
            changeType := ChangeType.EDIT, oldId := oldRef, newId := newRef }) := by
  refine ⟨?_, ?_, ?_, ?_, ?_, ?_⟩
  · -- (a) DEL and ADD outputs never share a content hash
    intro e₁ he₁ e₂ he₂ hop1 hop2 heq
    have he₁P : e₁ ∈ (pairDeletes (diffAdds results) (diffDeletes results) []).1 := by
      rcases mem_pairRenames results e₁ he₁ with h | h | ⟨x, _, rfl⟩
      · exact h
      · rw [remainingAdds_op results e₁ h] at hop1
        cases hop1
      · cases hop1
    have he₂R : ∃ j a, (diffAdds results)[j]? = some a ∧
        j ∉ (pairDeletes (diffAdds results) (diffDeletes results) []).2 ∧
        e₂ = { a with op := some DiffOp.ADD } := by
      rcases mem_pairRenames results e₂ he₂ with h | h | ⟨x, _, rfl⟩
      · rcases pairDeletes_ops _ _ _ e₂ h with hdel | hren
        · rw [hdel] at hop2; cases hop2
        · rw [hren] at hop2; cases hop2
      · exact mem_remainingAdds results e₂ h
      · cases hop2
    obtain ⟨j, a, hget, hju, rfl⟩ := he₂R
    obtain ⟨_, hall⟩ := pairDeletes_del (diffAdds results) (diffDeletes results) [] e₁ he₁P hop1
    exact hju (hall j a hget (by rw [← heq]))
  · -- (b) RENAME provenance
    intro e he hop
    have heP : e ∈ (pairDeletes (diffAdds results) (diffDeletes results) []).1 := by
      rcases mem_pairRenames results e he with h | h | ⟨x, _, rfl⟩
      · exact h
      · rw [remainingAdds_op results e h] at hop
        cases hop
      · cases hop
    obtain ⟨h1, ⟨d, hd, h2⟩, a, ha, h3⟩ :=
      pairDeletes_ren (diffAdds results) (diffDeletes results) [] e heP hop
    obtain ⟨hdres, hddel⟩ := List.mem_filter.mp hd
    obtain ⟨hares, haadd⟩ := List.mem_filter.mp ha
    exact ⟨h1, ⟨d, hdres, hddel, h2⟩, ⟨a, hares, haadd, h3⟩⟩
  · -- (c) a matched delete forces a RENAME
    rintro ⟨d, hd, hdel, a, ha, hadd, hmatch⟩
    have hdD : d ∈ diffDeletes results := List.mem_filter.mpr ⟨hd, hdel⟩
    have haA : a ∈ diffAdds results := List.mem_filter.mpr ⟨ha, hadd⟩
    obtain ⟨j, hget⟩ := List.mem_iff_getElem?.mp haA
    obtain ⟨e, he, hop⟩ := pairDeletes_ren_exists (diffAdds results)
      (diffDeletes results) [] ⟨d, hdD, j, a, hget, hmatch, List.not_mem_nil j⟩
    exact ⟨e, by unfold pairRenames; exact List.mem_append_left _ (List.mem_append_left _ he), hop⟩
  · -- (d) unmatched deletes stay DELETE
    intro d hd hdel hnom
    have hdD : d ∈ diffDeletes results := List.mem_filter.mpr ⟨hd, hdel⟩
    have hnomA : ∀ a ∈ diffAdds results, a.toId ≠ d.fromId := by
      intro a ha
      obtain ⟨hares, haadd⟩ := List.mem_filter.mp ha
      exact hnom a hares haadd
    have hmem := pairDeletes_del_stays (diffAdds results) (diffDeletes results) [] d hdD hnomA
    unfold pairRenames
    exact List.mem_append_left _ (List.mem_append_left _ hmem)
  · -- (e) unmatched adds stay ADD
    intro a ha hadd hnom
    have haA : a ∈ diffAdds results := List.mem_filter.mpr ⟨ha, hadd⟩
    obtain ⟨j, hget⟩ := List.mem_iff_getElem?.mp haA
    have hju : j ∉ (pairDeletes (diffAdds results) (diffDeletes results) []).2 := by
      intro hjU
      rcases pairDeletes_used_src (diffAdds results) (diffDeletes results) [] j hjU with
        hnil | ⟨d, hdD, a', hget', hta'⟩
      · exact List.not_mem_nil j hnil
      · have haa : a' = a := by
          rw [hget] at hget'
          exact (Option.some_injective _ hget').symm
        subst haa
        obtain ⟨hdres, hddel⟩ := List.mem_filter.mp hdD
        exact hnom d hdres hddel hta'.symm
    have hmem := remainingAdds_mem results j a hget hju
    unfold pairRenames
    exact List.mem_append_left _ (List.mem_append_right _ hmem)
  · -- (f) surfacing as one EDIT
    intro oldRef newRef partsOf e _ hop
    unfold classifyDiff
    rw [hop]

namespace FtIntegration

/-- Concrete deleted test main file with content hash "h1". -/
def exRenDel : DiffEntry :=
  { fromPath := "PkgA/Test1/Test1.tsp", toPath := "dev/null",
    fromId := some "h1", toId := none }

/-- Concrete added test main file with the same content hash "h1". -/
def exRenAdd : DiffEntry :=
  { fromPath := "dev/null", toPath := "PkgB/Test1/Test1.tsp",
    fromId := none, toId := some "h1" }

end FtIntegration

/-- Witness for `rename_pairing_spec` on one hash-equal delete/add pair. -/
theorem rename_pairing_spec_witness :
    ∃ e ∈ pairRenames [exRenDel, exRenAdd], e.op = some DiffOp.RENAME :=
  (rename_pairing_spec [exRenDel, exRenAdd]).2.2.1
    ⟨exRenDel, by decide, by decide,
      exRenAdd, by decide, by decide, by decide⟩

namespace FtIntegration

/-- `matchesFilter` ignores the `op` tag. -/
theorem matchesFilter_op (x : DiffEntry) (o : Option DiffOp) :
    matchesFilter { x with op := o } = matchesFilter x := rfl

/-- A passing filter means the relevant path is the root marker or has
an allow-listed basename. -/
theorem matchesFilter_spec (e : DiffEntry) (h : matchesFilter e = true) :
    relevantPathOf e = "." ∨ allowedDiffName (basenameStr (relevantPathOf e)) = true := by
  unfold matchesFilter at h
  by_cases hr : relevantPathOf e = "."
  · exact Or.inl hr
  · rw [if_neg hr] at h
    exact Or.inr h

/-- On a non-delete-shaped entry the relevant path is the `to` path. -/
theorem relevantPathOf_not_del (e : DiffEntry)
    (h : ¬(e.fromPath ≠ "dev/null" ∧ e.toPath = "dev/null")) :
    relevantPathOf e = e.toPath := by
  unfold relevantPathOf
  rw [if_neg h]

/-- Every entry surviving the diff pipeline passes the filter, and its
relevant path is `from` for DEL and `to` otherwise. -/
theorem getDiffEntriesModel_pathOk (raw : List DiffEntry) :
    ∀ e ∈ getDiffEntriesModel raw,
      matchesFilter e = true ∧
      (e.op = some DiffOp.DEL → relevantPathOf e = e.fromPath) ∧
      (e.op ≠ some DiffOp.DEL → relevantPathOf e = e.toPath) := by
  intro e he
  unfold getDiffEntriesModel at he
  have hall : ∀ x ∈ raw.filter matchesFilter, matchesFilter x = true :=
    fun x hx => List.of_mem_filter hx
  rcases mem_pairRenames _ e he with hP | hA | ⟨x, hx, rfl⟩
  · rcases pairDeletes_ops _ _ _ e hP with hdel | hren
    · obtain ⟨⟨d, hd, rfl⟩, _⟩ := pairDeletes_del _ _ _ e hP hdel
      obtain ⟨hdres, hddel⟩ := List.mem_filter.mp hd
      have hshape : d.fromPath ≠ "dev/null" ∧ d.toPath = "dev/null" := by
        unfold isDeleteEntry at hddel
        rw [Bool.and_eq_true, bne_iff_ne, beq_iff_eq] at hddel
        exact hddel
      refine ⟨by rw [matchesFilter_op]; exact hall d hdres, ?_, ?_⟩
      · intro _
        show relevantPathOf { d with op := some DiffOp.DEL } = d.fromPath
        unfold relevantPathOf
        rw [if_pos hshape]
      · intro hne
        exact absurd rfl hne
    · obtain ⟨_, ⟨d, hd, hfp, _⟩, a, ha, htp, _⟩ :=
        pairDeletes_ren _ _ _ e hP hren
      obtain ⟨hares, haadd⟩ := List.mem_filter.mp ha
      have hashape : a.fromPath = "dev/null" ∧ a.toPath ≠ "dev/null" := by
        unfold isAddEntry at haadd
        rw [Bool.and_eq_true, beq_iff_eq, bne_iff_ne] at haadd
        exact haadd
      have hrel : relevantPathOf e = e.toPath := by
        apply relevantPathOf_not_del
        rintro ⟨_, hto⟩
        rw [htp] at hto
        exact hashape.2 hto
      have hrela : relevantPathOf a = a.toPath := by
        apply relevantPathOf_not_del
        rintro ⟨hfrom, _⟩
        exact hfrom hashape.1
      refine ⟨?_, ?_, fun _ => hrel⟩
      · have hma := hall a hares
        unfold matchesFilter at hma ⊢
        rw [hrel, htp]
        rw [hrela] at hma
        exact hma
      · intro hcontra
        rw [hren] at hcontra
        cases hcontra
  · obtain ⟨j, a, hget, _, rfl⟩ := mem_remainingAdds _ e hA
    have haA : a ∈ diffAdds (raw.filter matchesFilter) :=
      List.mem_iff_getElem?.mpr ⟨j, hget⟩
    obtain ⟨hares, haadd⟩ := List.mem_filter.mp haA
    have hashape : a.fromPath = "dev/null" ∧ a.toPath ≠ "dev/null" := by
      unfold isAddEntry at haadd
      rw [Bool.and_eq_true, beq_iff_eq, bne_iff_ne] at haadd
      exact haadd
    refine ⟨by rw [matchesFilter_op]; exact hall a hares, ?_, ?_⟩
    · intro hcontra
      cases hcontra
    · intro _
      show relevantPathOf { a with op := some DiffOp.ADD } = a.toPath
      apply relevantPathOf_not_del
      rintro ⟨hfrom, _⟩
      exact hfrom hashape.1
  · obtain ⟨hxres, hxoth⟩ := List.mem_filter.mp hx
    have hxshape : ¬(x.fromPath ≠ "dev/null" ∧ x.toPath = "dev/null") := by
      rw [Bool.and_eq_true] at hxoth
      have hnd : isDeleteEntry x = false := by
        have := hxoth.1
        rwa [Bool.not_eq_true'] at this
      unfold isDeleteEntry at hnd
      rw [Bool.and_eq_false_iff] at hnd
      rintro ⟨hfrom, hto⟩
      rcases hnd with hnd | hnd
      · rw [bne_eq_false_iff_eq] at hnd
        exact hfrom hnd
      · rw [beq_eq_false_iff_ne] at hnd
        exact hnd hto
    refine ⟨by rw [matchesFilter_op]; exact hall x hxres, ?_, ?_⟩
    · intro hcontra
      cases hcontra
    · intro _
      show relevantPathOf { x with op := some DiffOp.MODIFY } = x.toPath
      exact relevantPathOf_not_del _ hxshape

/-- Every entry surviving the pipeline carries one of the four op tags. -/
theorem getDiffEntriesModel_op (raw : List DiffEntry) :
    ∀ e ∈ getDiffEntriesModel raw,
      e.op = some DiffOp.DEL ∨ e.op = some DiffOp.RENAME ∨
      e.op = some DiffOp.ADD ∨ e.op = some DiffOp.MODIFY := by
  intro e he
  unfold getDiffEntriesModel at he
  rcases mem_pairRenames _ e he with hP | hA | ⟨x, _, rfl⟩
  · rcases pairDeletes_ops _ _ _ e hP with h | h
    · exact Or.inl h
    · exact Or.inr (Or.inl h)
  · exact Or.inr (Or.inr (Or.inl (remainingAdds_op _ e hA)))
  · exact Or.inr (Or.inr (Or.inr rfl))

/-- Concrete spreadsheet delete entry (excluded by the filter). -/
def exXlsxDel : DiffEntry :=
  { fromPath := "Test1/Default.xlsx", toPath := "dev/null",
    fromId := some "hx", toId := none }

/-- Concrete wrapper produced for `exRenAdd` alone. -/
def exAddWrapper : ScmAffectedFileWrapper :=
  { newPath := "PkgB/Test1/Test1.tsp", oldPath := none,
    changeType := ChangeType.ADD, oldId := "", newId := "h1" }

end FtIntegration

/-- **C5 (counterexample).** The claimed tool-type-dependent allow-list
does not exist: the filter rejects a spreadsheet (`.xlsx`) entry, which
the claim says the UFT tool type admits, and `getScmChanges` takes no
tool-type into account — the allow-list is the same fixed list for every
tool type. -/
theorem scm_allowlist_counterexample :
    matchesFilter exXlsxDel = false ∧
    getDiffEntriesModel [exXlsxDel] = [] ∧
    wrapScmChanges "o" "n" (fun _ => ([] : List DiffPart)) [exXlsxDel] = [] := by
  refine ⟨by decide, by decide, ?_⟩
  show (getDiffEntriesModel [exXlsxDel]).map _ = []
  rw [show getDiffEntriesModel [exXlsxDel] = [] from by decide]
  rfl

/-- **C5 (amended).** Fixed allow-list: every wrapper returned by the
SCM-change pipeline has a `newPath` that is the root marker or whose
basename is in the fixed allow-list (`.tsp`/`.st` extensions,
`ACTIONS.XML`/`Resource.MTR` filenames, case-insensitive), independent
of tool type; excluded file types (spreadsheets in particular) never
appear. -/
theorem scm_allowlist_spec (oldRef newRef : String)
    (partsOf : DiffEntry → List DiffPart) (raw : List DiffEntry) :
    ∀ w ∈ wrapScmChanges oldRef newRef partsOf raw,
      w.newPath = "." ∨ allowedDiffName (basenameStr w.newPath) = true := by
  intro w hw
  unfold wrapScmChanges at hw
  obtain ⟨e, he, rfl⟩ := List.mem_map.mp hw
  obtain ⟨hmf, hdel, hnotdel⟩ := getDiffEntriesModel_pathOk raw e he
  have hspec := matchesFilter_spec e hmf
  rcases getDiffEntriesModel_op raw e he with hop | hop | hop | hop
  · have hrel := hdel hop
    have hnp : (classifyDiff oldRef newRef partsOf e).newPath = e.fromPath := by
      unfold classifyDiff
      rw [hop]
    rw [hnp, ← hrel]
    exact hspec
  · have hrel := hnotdel (by rw [hop]; intro h; cases h)
    have hnp : (classifyDiff oldRef newRef partsOf e).newPath = e.toPath := by
      unfold classifyDiff
      rw [hop]
    rw [hnp, ← hrel]
    exact hspec
  · have hrel := hnotdel (by rw [hop]; intro h; cases h)
    have hnp : (classifyDiff oldRef newRef partsOf e).newPath = e.toPath := by
      unfold classifyDiff
      rw [hop]
    rw [hnp, ← hrel]
    exact hspec
  · have hrel := hnotdel (by rw [hop]; intro h; cases h)
    have hnp : (classifyDiff oldRef newRef partsOf e).newPath = e.toPath := by
      unfold classifyDiff
      rw [hop]
      by_cases hsim : (1 : ℚ)/2 ≤ calculateSimilarity (partsOf e)
      · rw [if_pos hsim]
      · rw [if_neg hsim]
    rw [hnp, ← hrel]
    exact hspec

/-- Witness for `scm_allowlist_spec` on one added `.tsp` main file. -/
theorem scm_allowlist_spec_witness :
    exAddWrapper.newPath = "."
      ∨ allowedDiffName (basenameStr exAddWrapper.newPath) = true :=
  scm_allowlist_spec "o" "n" (fun _ => ([] : List DiffPart)) [exRenAdd]
    exAddWrapper (by decide)

namespace FtIntegration

/-! ### False-positive data-table filter — `src/discovery/Discovery.ts`
lines 112–123 and 168–175 -/

/-- `isBlank` (`src/utils/utils.ts` lines 144–146) on a present string:
empty or whitespace-only. -/
def isBlankStr (s : String) : Bool :=
  s.data.all (fun c => c.isWhitespace)

/-- JS `String.prototype.includes`: substring search. -/
def containsSearch (needle : List Char) : List Char → Bool
  | [] => needle.isPrefixOf []
  | l@(_ :: rest) => needle.isPrefixOf l || containsSearch needle rest

/-- JS `hay.includes(needle)`. -/
def strContainsSubstr (hay needle : String) : Bool :=
  containsSearch needle.data hay.data

/-- `path.dirname` on a relative path: the part before the last `/`,
or `"."` when there is no `/`. -/
def dirnameStr (s : String) : String :=
  if s.data.any (fun c => c == '/') then
    String.mk (((s.data.reverse.dropWhile (fun c => c != '/')).drop 1).reverse)
  else "."

/-- The per-test path key of the filter (line 116):
`isBlank(packageName) ? name : path.join(packageName, name)`. -/
def testPathOf (t : AutomatedTest) : String :=
  if isBlankStr t.packageName then t.name else t.packageName ++ "/" ++ t.name

/-- Embedding of `Discovery.removeFalsePositiveDataTables`
(`src/discovery/Discovery.ts` lines 112–123): when both guard lists are
non-empty, filter the WHOLE `_scmResxFiles` array (`allResx`), dropping
every file whose parent directory contains some given test path as a
substring; the `scmResxFiles` argument is only consulted by the guard. -/
def removeFalsePositiveDataTables (tests : List AutomatedTest)
    (scmResxFiles : List ScmResourceFile)
    (allResx : List ScmResourceFile) : List ScmResourceFile :=
  if tests.length = 0 ∨ scmResxFiles.length = 0 then allResx
  else allResx.filter (fun file =>
    !((tests.map testPathOf).any (fun testPath =>
      strContainsSubstr (dirnameStr file.relativePath) testPath)))

/-- `getTestsByOctaneStatus` (lines 77–79). -/
def testsByStatus (s : OctaneStatus) (tests : List AutomatedTest) : List AutomatedTest :=
  tests.filter (fun t => decide (t.octaneStatus = s))

/-- `getResxFilesByOctaneStatus` (lines 89–91). -/
def resxByStatus (s : OctaneStatus) (files : List ScmResourceFile) : List ScmResourceFile :=
  files.filter (fun f => decide (f.octaneStatus = s))

/-- Discovery state carried across the incremental post-pass. -/
structure DiscoveryState where
  tests : List AutomatedTest
  scmResxFiles : List ScmResourceFile
deriving DecidableEq

/-- The two false-positive calls of `doSyncDiscovery` (lines 171–172):
first the DELETED bucket, then the NEW bucket, each rewriting the global
`_scmResxFiles`. -/
def falsePositivePass (st : DiscoveryState) : DiscoveryState :=
  let resx1 := removeFalsePositiveDataTables
    (testsByStatus OctaneStatus.DELETED st.tests)
    (resxByStatus OctaneStatus.DELETED st.scmResxFiles) st.scmResxFiles
  let resx2 := removeFalsePositiveDataTables
    (testsByStatus OctaneStatus.NEW st.tests)
    (resxByStatus OctaneStatus.NEW resx1) resx1
  { tests := st.tests, scmResxFiles := resx2 }

/-- Concrete DELETED test at the repository root. -/
def exFPDelTest : AutomatedTest :=
  { name := "TestA", packageName := "", octaneStatus := OctaneStatus.DELETED }

/-- Concrete DELETED resource file inside the deleted test's folder. -/
def exResxDel : ScmResourceFile :=
  { name := "d", relativePath := "TestA/Default.xlsx",
    octaneStatus := OctaneStatus.DELETED }

/-- Concrete NEW resource file inside the deleted test's folder. -/
def exResxNew : ScmResourceFile :=
  { name := "n", relativePath := "TestA/Other.xlsx",
    octaneStatus := OctaneStatus.NEW }

/-- Concrete discovery state with no NEW test at all. -/
def exFPState : DiscoveryState :=
  { tests := [exFPDelTest], scmResxFiles := [exResxDel, exResxNew] }

end FtIntegration

/-- **C7 (counterexample).** Bucket independence fails: in `exFPState`
there is no NEW test, yet the NEW resource file `exResxNew` is removed —
the DELETED-bucket pass filters the whole resource list, so a NEW file
is dropped because of a DELETED test. -/
theorem falsePositive_counterexample :
    exResxNew.octaneStatus = OctaneStatus.NEW ∧
    testsByStatus OctaneStatus.NEW exFPState.tests = [] ∧
    exResxNew ∈ exFPState.scmResxFiles ∧
    (falsePositivePass exFPState).scmResxFiles = [] := by
  refine ⟨rfl, by decide, by decide, by decide⟩

/-- **C7 (amended).** Each false-positive call, when its two guard lists
(the bucket's tests and the bucket's resource files) are non-empty,
removes from the GLOBAL resource list every file — of any bucket — whose
parent directory contains some bucket-test path as a substring; with an
empty guard list nothing is removed.  Hence removal is not
bucket-independent. -/
theorem removeFalsePositive_spec
    (tests : List AutomatedTest) (scmResxFiles allResx : List ScmResourceFile)
    (f : ScmResourceFile) :
    (f ∈ removeFalsePositiveDataTables tests scmResxFiles allResx ↔
      f ∈ allResx ∧
        (tests.length = 0 ∨ scmResxFiles.length = 0 ∨
          ((tests.map testPathOf).any (fun p =>
            strContainsSubstr (dirnameStr f.relativePath) p)) = false)) ∧
    (f ∈ allResx → tests.length ≠ 0 → scmResxFiles.length ≠ 0 →
      (∃ t ∈ tests, strContainsSubstr (dirnameStr f.relativePath) (testPathOf t) = true) →
      f ∉ removeFalsePositiveDataTables tests scmResxFiles allResx) := by
  constructor
  · unfold removeFalsePositiveDataTables
    by_cases hg : tests.length = 0 ∨ scmResxFiles.length = 0
    · rw [if_pos hg]
      constructor
      · intro hf
        exact ⟨hf, by tauto⟩
      · exact fun h => h.1
    · rw [if_neg hg]
      push_neg at hg
      constructor
      · intro hf
        obtain ⟨hmem, hpred⟩ := List.mem_filter.mp hf
        refine ⟨hmem, Or.inr (Or.inr ?_)⟩
        rwa [Bool.not_eq_eq_eq_not, Bool.not_true] at hpred
      · rintro ⟨hmem, hcond⟩
        rcases hcond with h0 | h0 | hany
        · exact absurd h0 hg.1
        · exact absurd h0 hg.2
        · exact List.mem_filter.mpr ⟨hmem, by rw [hany]; rfl⟩
  · intro hmem hne1 hne2 ⟨t, ht, hcontains⟩ hf
    unfold removeFalsePositiveDataTables at hf
    rw [if_neg (by tauto)] at hf
    obtain ⟨_, hpred⟩ := List.mem_filter.mp hf
    rw [Bool.not_eq_eq_eq_not, Bool.not_true, List.any_eq_false] at hpred
    exact absurd hcontains (by simpa using hpred (testPathOf t) (List.mem_map_of_mem _ ht))

/-- Witness for `removeFalsePositive_spec`: the NEW file `exResxNew` is
dropped by the DELETED bucket's call. -/
theorem removeFalsePositive_spec_witness :
    exResxNew ∉ removeFalsePositiveDataTables [exFPDelTest] [exResxDel]
      [exResxDel, exResxNew] :=
  (removeFalsePositive_spec [exFPDelTest] [exResxDel] [exResxDel, exResxNew]
      exResxNew).2 (by decide) (by decide) (by decide)
    ⟨exFPDelTest, by decide, by decide⟩

namespace FtIntegration

/-! ### Test-level incremental handler — `src/discovery/Discovery.ts`
lines 216–262, with `createAutomatedTest`/`createAutomatedTestEx`
(lines 288–325) and `getTestType` (`src/utils/utils.ts` lines 128–137).
Paths are relative slash-separated git paths; `path.join`/`dirname`/
`basename`/`relative` are modelled on segment lists. -/

/-- The configured testing tool (`config.testingTool`). -/
inductive ToolType
  | MBT
  | UFT
deriving DecidableEq

/-- `String.prototype.split(sep)` for a single separator char. -/
def splitOnCharAux (sep : Char) : List Char → List Char → List (List Char)
  | [], acc => [acc.reverse]
  | c :: rest, acc =>
    if c == sep then acc.reverse :: splitOnCharAux sep rest []
    else splitOnCharAux sep rest (c :: acc)

/-- `s.split(sep)`. -/
def splitOnChar (sep : Char) (s : String) : List String :=
  (splitOnCharAux sep s.data []).map String.mk

/-- `segments.join("/")` — also `path.join` of clean relative segments. -/
def joinSegs (segs : List String) : String :=
  String.intercalate "/" segs

/-- `path.extname`: from the last `.` of the basename; no dot, or only a
leading dot, yields the empty string. -/
def extnameStr (s : String) : String :=
  let b := (basenameStr s).data
  if b.any (fun c => c == '.') then
    let afterLast := (b.reverse.takeWhile (fun c => c != '.')).reverse
    if afterLast.length + 1 = b.length then ""
    else String.mk ('.' :: afterLast)
  else ""

/-- `getTestType` (`src/utils/utils.ts` lines 128–137). -/
def getTestType (filePath : String) : UftoTestType :=
  let ext := toLowerStr (extnameStr filePath)
  if ext = ".st" ∨ filePath = "actions.xml" then UftoTestType.API
  else if ext = ".tsp" then UftoTestType.GUI
  else UftoTestType.None

/-- `createAutomatedTest` (lines 288–308): the test folder is the parent
of the main file (`workDirSegs ++ newPathSegs` minus the file name), the
test name its basename, and the package the relative parent path minus
the last segment when longer than the name. -/
def createAutomatedTest (workDirSegs newPathSegs : List String)
    (testType : UftoTestType) (oldId newId : Option String) : AutomatedTest :=
  let testDirSegs := (workDirSegs ++ newPathSegs).dropLast
  let testName := testDirSegs.getLast?.getD ""
  let relativePath := joinSegs (testDirSegs.drop workDirSegs.length)
  let packageName :=
    if testName.length < relativePath.length then
      joinSegs ((splitOnChar '/' relativePath).dropLast)
    else ""
  { name := testName, packageName := packageName, uftOneTestType := testType,
    executable := true, description := "", actions := [],
    octaneStatus := OctaneStatus.NEW, changeSetSrc := oldId, changeSetDst := newId }

/-- `createAutomatedTestEx` (lines 310–325): additionally stores the
parsed description and, for the MBT tool on GUI tests, the parsed action
list; the XML parsing itself is abstracted by the `parsedDescr` /
`parsedActions` inputs. -/
def createAutomatedTestEx (workDirSegs newPathSegs : List String)
    (testType : UftoTestType) (oldId newId : Option String)
    (toolType : ToolType) (parsedDescr : String)
    (parsedActions : List UftoTestAction) : AutomatedTest :=
  let t := createAutomatedTest workDirSegs newPathSegs testType oldId newId
  let acts := if toolType = ToolType.MBT ∧ testType = UftoTestType.GUI
              then parsedActions else []
  { t with description := parsedDescr, actions := acts }

/-- `s.replace(/\//g, "\\")`. -/
def slashesToBackslashes (s : String) : String :=
  String.mk (s.data.map (fun c => if c == '/' then '\\' else c))

/-- JS `hay.indexOf(needle)` helper. -/
def indexOfAux (needle : List Char) : List Char → Nat → Option Nat
  | [], i => if needle.isPrefixOf ([] : List Char) then some i else none
  | l@(_ :: rest), i =>
    if needle.isPrefixOf l then some i else indexOfAux needle rest (i + 1)

/-- JS `hay.indexOf(needle)`: first index or `-1`. -/
def indexOfSubstr (hay needle : String) : Int :=
  match indexOfAux needle.data hay.data 0 with
  | some i => (i : Int)
  | none => -1

/-- JS `s.substring(0, e)`: clamps a negative end to 0. -/
def jsSubstringTo (s : String) (e : Int) : String :=
  String.mk (s.data.take (max 0 e).toNat)

/-- `updateOldData`'s old test name (lines 243–246):
`parts[parts.length - 2]` of the slash-split old path, undefined when
there are fewer than two parts. -/
def oldNameOfPath (p : String) : Option String :=
  let parts := splitOnChar '/' p
  if 2 ≤ parts.length then some (parts.getD (parts.length - 2) "") else none

/-- `updateOldData`'s old package (lines 248–251): for paths with more
than two parts, the prefix before the first occurrence of the old test
name (minus the separator) in Windows style, otherwise the empty string. -/
def oldPackageNameOfPath (p : String) : String :=
  let parts := splitOnChar '/' p
  if 2 < parts.length then
    slashesToBackslashes
      (jsSubstringTo p (indexOfSubstr p ((oldNameOfPath p).getD "") - 1))
  else ""

/-- `updateOldData` (lines 241–254): stamps the old name/package derived
from the diff entry's old path, when that path is non-blank. -/
def updateOldData (test : AutomatedTest) (oldPath : Option String) : AutomatedTest :=
  match oldPath with
  | none => test
  | some p =>
    if isBlankStr p then test
    else { test with oldName := oldNameOfPath p, oldPackageName := some (oldPackageNameOfPath p) }

/-- `isBlank` on an optional string (JS `isBlank(undefined) = true`). -/
def isBlankOpt : Option String → Bool
  | none => true
  | some s => isBlankStr s

/-- `isTestMoved` (lines 257–262): with a non-blank old and new name and
both packages present, moved means the name or the package changed. -/
def isTestMoved (test : AutomatedTest) : Bool :=
  match test.oldName, test.oldPackageName with
  | some o, some op =>
    if !(isBlankStr o) && !(isBlankStr test.name) then
      decide (test.name ≠ o) || decide (test.packageName ≠ op)
    else false
  | _, _ => false

/-- `handleTestChanges` (lines 216–239): the tests pushed for one
affected main-file entry, with the on-disk existence of the file as the
`fileExists` input. -/
def handleTestChanges (workDirSegs : List String) (toolType : ToolType)
    (w : ScmAffectedFileWrapper) (fileExists : Bool)
    (parsedDescr : String) (parsedActions : List UftoTestAction) :
    List AutomatedTest :=
  let newPathSegs := splitOnChar '/' w.newPath
  let testType := getTestType w.newPath
  let test :=
    if fileExists then
      createAutomatedTestEx workDirSegs newPathSegs testType
        (some w.oldId) (some w.newId) toolType parsedDescr parsedActions
    else
      createAutomatedTest workDirSegs newPathSegs testType
        (some w.oldId) (some w.newId)
  if w.changeType = ChangeType.ADD then
    if fileExists then [test] else []
  else if w.changeType = ChangeType.DELETE then
    if fileExists then []
    else [{ test with executable := false, octaneStatus := OctaneStatus.DELETED }]
  else if w.changeType = ChangeType.EDIT then
    if fileExists then
      let t2 := updateOldData test w.oldPath
      [{ t2 with isMoved := isTestMoved t2, octaneStatus := OctaneStatus.MODIFIED }]
    else []
  else []

end FtIntegration

namespace FtIntegration

/-- `isTestMoved` under its well-formedness guards is exactly "name or
package changed". -/
theorem isTestMoved_iff (t : AutomatedTest) (o op : String)
    (ho : t.oldName = some o) (hop : t.oldPackageName = some op)
    (hbo : isBlankStr o = false) (hbn : isBlankStr t.name = false) :
    isTestMoved t = true ↔ (t.name ≠ o ∨ t.packageName ≠ op) := by
  unfold isTestMoved
  rw [ho, hop]
  simp [hbo, hbn]

end FtIntegration

/-- **C2.** Test-level incremental handler guards: an ADD records a test
(status NEW) only when the file still exists; a DELETE records only when
the file is gone, with `executable := false` and status DELETED; an EDIT
whose file exists records exactly one test with status MODIFIED whose
old name/package are derived from the diff entry's old path and whose
`isMoved` flag is true iff the name or the package changed. -/
theorem handleTestChanges_spec (workDirSegs : List String) (toolType : ToolType)
    (w : ScmAffectedFileWrapper) (parsedDescr : String)
    (parsedActions : List UftoTestAction) :
    (w.changeType = ChangeType.ADD →
      handleTestChanges workDirSegs toolType w false parsedDescr parsedActions = [] ∧
      ∀ t ∈ handleTestChanges workDirSegs toolType w true parsedDescr parsedActions,
        t.octaneStatus = OctaneStatus.NEW) ∧
    (w.changeType = ChangeType.DELETE →
      handleTestChanges workDirSegs toolType w true parsedDescr parsedActions = [] ∧
      (handleTestChanges workDirSegs toolType w false parsedDescr parsedActions).length = 1 ∧
      ∀ t ∈ handleTestChanges workDirSegs toolType w false parsedDescr parsedActions,
        t.executable = false ∧ t.octaneStatus = OctaneStatus.DELETED) ∧
    (w.changeType = ChangeType.EDIT →
      handleTestChanges workDirSegs toolType w false parsedDescr parsedActions = [] ∧
      (handleTestChanges workDirSegs toolType w true parsedDescr parsedActions).length = 1 ∧
      ∀ t ∈ handleTestChanges workDirSegs toolType w true parsedDescr parsedActions,
        t.octaneStatus = OctaneStatus.MODIFIED ∧
        t.isMoved = isTestMoved t ∧
        (∀ p, w.oldPath = some p → isBlankStr p = false →
          t.oldName = oldNameOfPath p ∧
          t.oldPackageName = some (oldPackageNameOfPath p)) ∧
        (∀ o op, t.oldName = some o → t.oldPackageName = some op →
          isBlankStr o = false → isBlankStr t.name = false →
          (t.isMoved = true ↔ (t.name ≠ o ∨ t.packageName ≠ op)))) := by
  refine ⟨?_, ?_, ?_⟩
  · intro hct
    constructor
    · simp [handleTestChanges, hct]
    · intro t ht
      simp [handleTestChanges, hct] at ht
      subst ht
      rfl
  · intro hct
    refine ⟨by simp [handleTestChanges, hct], ?_, ?_⟩
    · simp [handleTestChanges, hct]
    · intro t ht
      simp [handleTestChanges, hct] at ht
      subst ht
      exact ⟨rfl, rfl⟩
  · intro hct
    refine ⟨by simp [handleTestChanges, hct], ?_, ?_⟩
    · simp [handleTestChanges, hct]
    · intro t ht
      simp [handleTestChanges, hct] at ht
      subst ht
      refine ⟨rfl, rfl, ?_, ?_⟩
      · intro p hp hblank
        rw [hp]
        simp [updateOldData, hblank]
      · intro o op ho hop hbo hbn
        exact isTestMoved_iff _ o op ho hop hbo hbn

namespace FtIntegration

/-- Concrete EDIT wrapper: test folder moved from PkgA to PkgB. -/
def exC2W : ScmAffectedFileWrapper :=
  { newPath := "PkgB/Test1/Test1.tsp", oldPath := some "PkgA/Test1/Test1.tsp",
    changeType := ChangeType.EDIT, oldId := "a", newId := "b" }

/-- The single test recorded for `exC2W` (moved: package changed). -/
def exC2Test : AutomatedTest :=
  { name := "Test1", packageName := "PkgB", uftOneTestType := UftoTestType.GUI,
    executable := true, description := "", actions := [],
    octaneStatus := OctaneStatus.MODIFIED, oldName := some "Test1",
    oldPackageName := some "PkgA", isMoved := true,
    changeSetSrc := some "a", changeSetDst := some "b" }

end FtIntegration

/-- Witness for `handleTestChanges_spec` on a concrete moved-test EDIT. -/
theorem handleTestChanges_spec_witness :
    exC2Test.octaneStatus = OctaneStatus.MODIFIED ∧
      (exC2Test.isMoved = true
        ↔ (exC2Test.name ≠ "Test1" ∨ exC2Test.packageName ≠ "PkgA")) := by
  obtain ⟨-, -, hall⟩ :=
    (handleTestChanges_spec ["work"] ToolType.MBT exC2W "" []).2.2 rfl
  obtain ⟨hmod, -, -, hiff⟩ := hall exC2Test (by decide)
  exact ⟨hmod, hiff "Test1" "PkgA" (by decide) (by decide) (by decide) (by decide)⟩

namespace FtIntegration

/-! ### Moved-test folder reconciliation — `src/test/MbtDataPrepConverter.ts`
(mbtDiscoveryResultDispatcher) lines 224–313, with `extractScmTestPath`
(`src/utils/utils.ts` lines 193–217).  JS `Map`s are modelled as
association lists where `set` overwrites the first binding in place or
appends — exactly the insertion-order semantics of `Map`. -/

/-- Octane `Folder` (id and name). -/
structure Folder where
  id : Nat
  name : String
deriving DecidableEq, Inhabited

/-- Octane `Unit` as consumed by the folder reconciliation. -/
structure Unit where
  name : String
  repository_path : String
  parent : Option Folder := none
deriving DecidableEq

/-- JS `Map.get`. -/
def mapLookup {β : Type} : List (String × β) → String → Option β
  | [], _ => none
  | kv :: rest, k => if kv.1 = k then some kv.2 else mapLookup rest k

/-- JS `Map.set`: overwrite the (first) binding in place or append. -/
def mapSet {β : Type} : List (String × β) → String → β → List (String × β)
  | [], k, v => [(k, v)]
  | kv :: rest, k, v =>
    if kv.1 = k then (k, v) :: rest else kv :: mapSet rest k v

/-- `hay.lastIndexOf(c)`: last index or `-1`. -/
def lastIndexOfChar (s : String) (c : Char) : Int :=
  match indexOfAux [c] s.data.reverse 0 with
  | some r => (s.data.length : Int) - 1 - (r : Int)
  | none => -1

/-- JS `s.substring(a, b)`: clamps both ends into range and swaps them
when reversed. -/
def jsSubstring (s : String) (a b : Int) : String :=
  let n : Int := (s.data.length : Int)
  let a1 := (max 0 (min a n)).toNat
  let b1 := (max 0 (min b n)).toNat
  String.mk ((s.data.take (max a1 b1)).drop (min a1 b1))

/-- `b` is a prefix of `a`. -/
def strStartsWith (a b : String) : Bool :=
  b.data.isPrefixOf a.data

/-- `extractScmPathFromActionPath` (`src/utils/utils.ts` lines 210–217):
cut at the first `:` and lower-case, or return unchanged. -/
def extractScmPathFromActionPath (repositoryPath : String) : String :=
  let index := indexOfSubstr repositoryPath ":"
  if index = -1 then repositoryPath
  else toLowerStr (jsSubstringTo repositoryPath index)

/-- `extractScmTestPath` (`src/utils/utils.ts` lines 193–208): the test
path before the last `\`, provided the trailing segment minus its last
character starts with "action"; otherwise `null`. -/
def extractScmTestPath (scmPath : String) : Option String :=
  let p := extractScmPathFromActionPath scmPath
  let index := lastIndexOfChar p '\\'
  if index = -1 then none
  else
    let scmTestPath := jsSubstringTo p index
    let actionNumber := jsSubstring p (index + 1) ((p.data.length : Int) - 1)
    if strStartsWith (toLowerStr actionNumber) "action" then some scmTestPath
    else none

/-- `countDistinctTests` (`src/test/MbtDataPrepConverter.ts` lines
224–227): the number of distinct extracted test paths (including the
`null` result) over the units. -/
def countDistinctTests (units : List Unit) : Nat :=
  ((units.map (fun u => extractScmTestPath u.repository_path)).dedup).length

/-- The `oldNameToNewNameMap` reduce (lines 241–246): moved actions with
truthy distinct old/new test names. -/
def oldToNewStep (acc : List (String × String)) (action : UftoTestAction) :
    List (String × String) :=
  match action.testName, action.oldTestName with
  | some tn, some otn =>
    if action.moved ∧ tn ≠ "" ∧ otn ≠ "" ∧ tn ≠ otn then mapSet acc otn tn
    else acc
  | _, _ => acc

/-- The accumulated old-to-new map. -/
def buildOldToNewMap (updatedActions : List UftoTestAction) : List (String × String) :=
  updatedActions.foldl oldToNewStep []

/-- The `folderNameToUnitsMap` reduce (lines 264–278): group the fetched
units by parent-folder name, skipping units without a (truthy) parent
name. -/
def groupUnitsByParent (units : List Unit) : List (String × List Unit) :=
  units.foldl (fun acc unit =>
    match unit.parent with
    | none => acc
    | some parent =>
      if parent.name = "" then acc
      else mapSet acc parent.name ((mapLookup acc parent.name).getD [] ++ [unit])) []

/-- The units fetched under one folder name (empty when none). -/
def unitsOfFolder (units : List Unit) (folderName : String) : List Unit :=
  (mapLookup (groupUnitsByParent units) folderName).getD []

/-- The map of remote folders already bearing a target name (lines
251–254). -/
def upfExistingFoldersMap (existingFolders : List Folder) : List (String × Folder) :=
  existingFolders.map (fun f => (f.name, f))

/-- `folderNamesToUpdate` before the multi-test filtering (line 257):
old names whose new name has no existing remote folder. -/
def upfCandidates (updatedActions : List UftoTestAction)
    (existingFolders : List Folder) : List String :=
  ((buildOldToNewMap updatedActions).filter
    (fun kv => (mapLookup (upfExistingFoldersMap existingFolders) kv.2).isNone)).map Prod.fst

/-- `foldersWithMultipleTests` (lines 281–286): candidates whose fetched
units span more than one distinct test. -/
def upfMulti (updatedActions : List UftoTestAction)
    (existingFolders : List Folder) (units : List Unit) : List String :=
  (upfCandidates updatedActions existingFolders).filter (fun folderName =>
    match mapLookup (groupUnitsByParent units) folderName with
    | some us => decide (1 < countDistinctTests us)
    | none => false)

/-- The in-place rename batch (line 288): candidates minus the
multi-test folders. -/
def upfRenamed (updatedActions : List UftoTestAction)
    (existingFolders : List Folder) (units : List Unit) : List String :=
  (upfCandidates updatedActions existingFolders).filter
    (fun folderName => !((upfMulti updatedActions existingFolders units).contains folderName))

/-- `foldersToCreate` (lines 296–300): the (truthy) new names of the
multi-test folders, as a set. -/
def upfCreated (updatedActions : List UftoTestAction)
    (existingFolders : List Folder) (units : List Unit) : List String :=
  ((upfMulti updatedActions existingFolders units).filterMap (fun folderName =>
    match mapLookup (buildOldToNewMap updatedActions) folderName with
    | some newName => if newName ≠ "" then some newName else none
    | none => none)).dedup

/-- The returned folder map (lines 301–309): the existing-by-new-name map
extended with the created folders. -/
def upfFolderMap (updatedActions : List UftoTestAction)
    (existingFolders : List Folder) (units : List Unit)
    (createFolder : String → Folder) : List (String × Folder) :=
  (upfCreated updatedActions existingFolders units).foldl
    (fun acc n => mapSet acc n (createFolder n))
    (upfExistingFoldersMap existingFolders)

/-- Result view of `updateParentFolders`: the rename batch passed to
`updateFolders` (by folder name), the created folder names, and the
returned folder map. -/
structure UPFResult where
  oldToNew : List (String × String)
  candidates : List String
  renamed : List String
  created : List String
  folderMap : List (String × Folder)
deriving DecidableEq

/-- Embedding of `updateParentFolders`
(`src/test/MbtDataPrepConverter.ts` lines 239–313).  The remote calls
are inputs: `existingFolders` is the `fetchChildFolders` result for the
new names, `units` the `fetchUnitsFromFolders` result, and
`createFolder` assigns the folder created per name (`createFolders`).
`renamed` is the name batch handed to `updateFolders` (line 291 fetches
folders by exactly these names). -/
def updateParentFolders (updatedActions : List UftoTestAction)
    (existingFolders : List Folder) (units : List Unit)
    (createFolder : String → Folder) : UPFResult :=
  if (buildOldToNewMap updatedActions).length = 0 then
    { oldToNew := buildOldToNewMap updatedActions, candidates := [],
      renamed := [], created := [], folderMap := [] }
  else if (upfCandidates updatedActions existingFolders).length ≠ 0 then
    { oldToNew := buildOldToNewMap updatedActions,
      candidates := upfCandidates updatedActions existingFolders,
      renamed := upfRenamed updatedActions existingFolders units,
      created := upfCreated updatedActions existingFolders units,
      folderMap := upfFolderMap updatedActions existingFolders units createFolder }
  else
    { oldToNew := buildOldToNewMap updatedActions,
      candidates := upfCandidates updatedActions existingFolders,
      renamed := [], created := [], folderMap := [] }

end FtIntegration

namespace FtIntegration

/-- Looking up the key just set yields the new value. -/
theorem mapSet_lookup_self {β : Type} (m : List (String × β)) (k : String) (v : β) :
    mapLookup (mapSet m k v) k = some v := by
  induction m with
  | nil => simp [mapSet, mapLookup]
  | cons kv rest ih =>
      by_cases hk : kv.1 = k
      · simp [mapSet, hk, mapLookup]
      · simp [mapSet, hk, mapLookup, ih]

/-- Setting one key leaves other lookups unchanged. -/
theorem mapSet_lookup_other {β : Type} (m : List (String × β)) (k : String)
    (v : β) (q : String) (h : q ≠ k) :
    mapLookup (mapSet m k v) q = mapLookup m q := by
  have hkq : ¬(k = q) := fun hc => h hc.symm
  induction m with
  | nil =>
      simp only [mapSet, mapLookup]
      rw [if_neg hkq]
  | cons kv rest ih =>
      by_cases hk : kv.1 = k
      · have hms : mapSet (kv :: rest) k v = (k, v) :: rest := by
          simp [mapSet, hk]
        rw [hms]
        simp only [mapLookup]
        rw [if_neg hkq, if_neg (fun hc : kv.1 = q => hkq (hk.symm.trans hc))]
      · have hms : mapSet (kv :: rest) k v = kv :: mapSet rest k v := by
          simp [mapSet, hk]
        rw [hms]
        simp only [mapLookup, ih]

/-- Every binding after a `set` is an old binding or the new one. -/
theorem mem_mapSet {β : Type} (m : List (String × β)) (k : String) (v : β)
    (kv' : String × β) (h : kv' ∈ mapSet m k v) : kv' ∈ m ∨ kv' = (k, v) := by
  induction m with
  | nil =>
      simp [mapSet] at h
      exact Or.inr h
  | cons kv rest ih =>
      by_cases hk : kv.1 = k
      · simp only [mapSet, hk, if_pos] at h
        rcases List.mem_cons.mp h with rfl | h'
        · exact Or.inr rfl
        · exact Or.inl (List.mem_cons_of_mem _ h')
      · simp only [mapSet, hk, if_neg, not_false_iff] at h
        rcases List.mem_cons.mp h with rfl | h'
        · exact Or.inl (List.mem_cons_self _ _)
        · rcases ih h' with hm | he
          · exact Or.inl (List.mem_cons_of_mem _ hm)
          · exact Or.inr he

/-- `set` keeps the key list unchanged or appends the new key. -/
theorem mapSet_keys {β : Type} (m : List (String × β)) (k : String) (v : β) :
    (mapSet m k v).map Prod.fst = m.map Prod.fst ∨
    (mapSet m k v).map Prod.fst = m.map Prod.fst ++ [k] := by
  induction m with
  | nil => exact Or.inr (by simp [mapSet])
  | cons kv rest ih =>
      by_cases hk : kv.1 = k
      · left
        simp [mapSet, hk]
      · rcases ih with h | h
        · left
          simp [mapSet, hk, h]
        · right
          simp [mapSet, hk, h]

/-- `set` preserves distinctness of the keys. -/
theorem mapSet_keys_nodup {β : Type} (m : List (String × β)) (k : String) (v : β)
    (h : (m.map Prod.fst).Nodup) : ((mapSet m k v).map Prod.fst).Nodup := by
  induction m with
  | nil => simp [mapSet]
  | cons kv rest ih =>
      by_cases hk : kv.1 = k
      · subst hk
        simpa [mapSet] using h
      · simp only [List.map_cons, List.nodup_cons] at h
        have ih' := ih h.2
        simp only [mapSet, hk, if_neg, not_false_iff, List.map_cons, List.nodup_cons]
        refine ⟨?_, ih'⟩
        intro hc
        rcases mapSet_keys rest k v with hkeys | hkeys
        · rw [hkeys] at hc
          exact h.1 hc
        · rw [hkeys] at hc
          rcases List.mem_append.mp hc with hc1 | hc2
          · exact h.1 hc1
          · exact hk (List.mem_singleton.mp hc2)

/-- With distinct keys, a binding's key looks up its value. -/
theorem mapLookup_of_mem_nodup {β : Type} (m : List (String × β))
    (hnd : (m.map Prod.fst).Nodup) (kv : String × β) (h : kv ∈ m) :
    mapLookup m kv.1 = some kv.2 := by
  induction m with
  | nil => cases h
  | cons kv0 rest ih =>
      simp only [List.map_cons, List.nodup_cons] at hnd
      rcases List.mem_cons.mp h with rfl | h'
      · simp [mapLookup]
      · have hne : kv0.1 ≠ kv.1 := by
          intro hc
          exact hnd.1 (hc ▸ List.mem_map_of_mem Prod.fst h')
        simp only [mapLookup, hne, if_neg, not_false_iff]
        exact ih hnd.2 h'

/-- Folding `set` over names not containing `n` leaves `n`'s lookup
unchanged. -/
theorem foldl_mapSet_lookup_not_mem (f : String → Folder) :
    ∀ (names : List String) (base : List (String × Folder)) (n : String),
      n ∉ names →
      mapLookup (names.foldl (fun acc x => mapSet acc x (f x)) base) n
        = mapLookup base n := by
  intro names
  induction names with
  | nil => intro base n _; rfl
  | cons x rest ih =>
      intro base n hn
      have hnx : n ≠ x := fun hc => hn (hc ▸ List.mem_cons_self _ _)
      have hnr : n ∉ rest := fun hc => hn (List.mem_cons_of_mem _ hc)
      simp only [List.foldl_cons]
      rw [ih (mapSet base x (f x)) n hnr]
      exact mapSet_lookup_other base x (f x) n hnx

/-- Folding `set` over distinct names binds each name to its folder. -/
theorem foldl_mapSet_lookup (f : String → Folder) :
    ∀ (names : List String) (base : List (String × Folder)) (n : String),
      names.Nodup → n ∈ names →
      mapLookup (names.foldl (fun acc x => mapSet acc x (f x)) base) n
        = some (f n) := by
  intro names
  induction names with
  | nil => intro base n _ hn; cases hn
  | cons x rest ih =>
      intro base n hnd hn
      simp only [List.nodup_cons] at hnd
      simp only [List.foldl_cons]
      rcases List.mem_cons.mp hn with rfl | hn'
      · rw [foldl_mapSet_lookup_not_mem f rest (mapSet base n (f n)) n hnd.1]
        exact mapSet_lookup_self base n (f n)
      · exact ih (mapSet base x (f x)) n hnd.2 hn'

/-- One reduce step preserves key distinctness and truthy values. -/
theorem oldToNewStep_inv (m : List (String × String)) (a : UftoTestAction)
    (h1 : (m.map Prod.fst).Nodup) (h2 : ∀ kv ∈ m, kv.2 ≠ "") :
    ((oldToNewStep m a).map Prod.fst).Nodup ∧
      ∀ kv ∈ oldToNewStep m a, kv.2 ≠ "" := by
  unfold oldToNewStep
  cases htn : a.testName with
  | none => exact ⟨h1, h2⟩
  | some tn =>
      cases hotn : a.oldTestName with
      | none => exact ⟨h1, h2⟩
      | some otn =>
          show ((if a.moved = true ∧ tn ≠ "" ∧ otn ≠ "" ∧ tn ≠ otn
              then mapSet m otn tn else m).map Prod.fst).Nodup ∧
            ∀ kv ∈ (if a.moved = true ∧ tn ≠ "" ∧ otn ≠ "" ∧ tn ≠ otn
              then mapSet m otn tn else m), kv.2 ≠ ""
          by_cases hcond : a.moved = true ∧ tn ≠ "" ∧ otn ≠ "" ∧ tn ≠ otn
          · rw [if_pos hcond]
            refine ⟨mapSet_keys_nodup m otn tn h1, ?_⟩
            intro kv hkv
            rcases mem_mapSet m otn tn kv hkv with hm | he
            · exact h2 kv hm
            · rw [he]
              exact hcond.2.1
          · rw [if_neg hcond]
            exact ⟨h1, h2⟩

/-- The old-to-new map has distinct keys and truthy values. -/
theorem buildOldToNewMap_inv (updatedActions : List UftoTestAction) :
    ((buildOldToNewMap updatedActions).map Prod.fst).Nodup ∧
      ∀ kv ∈ buildOldToNewMap updatedActions, kv.2 ≠ "" := by
  unfold buildOldToNewMap
  suffices h : ∀ (as : List UftoTestAction) (m : List (String × String)),
      (m.map Prod.fst).Nodup → (∀ kv ∈ m, kv.2 ≠ "") →
      ((as.foldl oldToNewStep m).map Prod.fst).Nodup ∧
        ∀ kv ∈ as.foldl oldToNewStep m, kv.2 ≠ "" by
    exact h updatedActions [] (by simp) (by simp)
  intro as
  induction as with
  | nil => intro m h1 h2; exact ⟨h1, h2⟩
  | cons a rest ih =>
      intro m h1 h2
      simp only [List.foldl_cons]
      obtain ⟨h1', h2'⟩ := oldToNewStep_inv m a h1 h2
      exact ih (oldToNewStep m a) h1' h2'

end FtIntegration

namespace FtIntegration

/-- A candidate folder whose fetched units span several tests is in the
multi-test set. -/
theorem mem_upfMulti (updatedActions : List UftoTestAction)
    (existingFolders : List Folder) (units : List Unit) (name : String)
    (hc : name ∈ upfCandidates updatedActions existingFolders)
    (hmulti : 1 < countDistinctTests (unitsOfFolder units name)) :
    name ∈ upfMulti updatedActions existingFolders units := by
  unfold upfMulti
  refine List.mem_filter.mpr ⟨hc, ?_⟩
  unfold unitsOfFolder at hmulti
  cases hlk : mapLookup (groupUnitsByParent units) name with
  | none =>
      rw [hlk] at hmulti
      simp [countDistinctTests] at hmulti
  | some us =>
      rw [hlk] at hmulti
      simp only [Option.getD_some] at hmulti
      exact decide_eq_true hmulti

/-- Renamed-in-place folders never span several tests. -/
theorem upfRenamed_safety (updatedActions : List UftoTestAction)
    (existingFolders : List Folder) (units : List Unit) (name : String)
    (hr : name ∈ upfRenamed updatedActions existingFolders units) :
    countDistinctTests (unitsOfFolder units name) ≤ 1 := by
  obtain ⟨hc, hpred⟩ := List.mem_filter.mp hr
  by_contra hgt
  rw [not_le] at hgt
  have hm := mem_upfMulti updatedActions existingFolders units name hc hgt
  have hnm : name ∉ upfMulti updatedActions existingFolders units := by
    simpa using hpred
  exact hnm hm

end FtIntegration

namespace FtIntegration

/-- A multi-test candidate is excluded from the rename batch; its new
name is created and bound in the folder map. -/
theorem upfMulti_created (updatedActions : List UftoTestAction)
    (existingFolders : List Folder) (units : List Unit)
    (createFolder : String → Folder) (name : String)
    (hc : name ∈ upfCandidates updatedActions existingFolders)
    (hmulti : 1 < countDistinctTests (unitsOfFolder units name)) :
    name ∉ upfRenamed updatedActions existingFolders units ∧
    ∃ newName,
      mapLookup (buildOldToNewMap updatedActions) name = some newName ∧
      newName ∈ upfCreated updatedActions existingFolders units ∧
      mapLookup (upfFolderMap updatedActions existingFolders units createFolder)
        newName = some (createFolder newName) := by
  have hm := mem_upfMulti updatedActions existingFolders units name hc hmulti
  constructor
  · intro hr
    obtain ⟨-, hpred⟩ := List.mem_filter.mp hr
    have hnm : name ∉ upfMulti updatedActions existingFolders units := by
      simpa using hpred
    exact hnm hm
  · unfold upfCandidates at hc
    obtain ⟨kv, hkvf, hkv1⟩ := List.mem_map.mp hc
    obtain ⟨hkvmem, -⟩ := List.mem_filter.mp hkvf
    obtain ⟨hnd, hvals⟩ := buildOldToNewMap_inv updatedActions
    have hlk : mapLookup (buildOldToNewMap updatedActions) name = some kv.2 := by
      rw [← hkv1]
      exact mapLookup_of_mem_nodup _ hnd kv hkvmem
    have hne : kv.2 ≠ "" := hvals kv hkvmem
    have hcreated : kv.2 ∈ upfCreated updatedActions existingFolders units := by
      unfold upfCreated
      refine List.mem_dedup.mpr (List.mem_filterMap.mpr ⟨name, hm, ?_⟩)
      rw [hlk]
      simp [hne]
    refine ⟨kv.2, hlk, hcreated, ?_⟩
    unfold upfFolderMap
    have hnodup : (upfCreated updatedActions existingFolders units).Nodup := by
      unfold upfCreated
      exact List.nodup_dedup _
    exact foldl_mapSet_lookup createFolder _ _ kv.2 hnodup hcreated

end FtIntegration

/-- **C1.** Folder-rename safety: every folder name in the in-place
rename batch of `updateParentFolders` has fetched units spanning at most
one distinct SCM test path, and every rename candidate whose units span
two or more distinct tests is kept out of the batch — its new folder
name is created instead and bound in the returned folder map. -/
theorem updateParentFolders_rename_safety
    (updatedActions : List UftoTestAction) (existingFolders : List Folder)
    (units : List FtIntegration.Unit) (createFolder : String → Folder) :
    (∀ name ∈ (updateParentFolders updatedActions existingFolders units
        createFolder).renamed,
      countDistinctTests (unitsOfFolder units name) ≤ 1) ∧
    (∀ name ∈ (updateParentFolders updatedActions existingFolders units
        createFolder).candidates,
      1 < countDistinctTests (unitsOfFolder units name) →
        name ∉ (updateParentFolders updatedActions existingFolders units
          createFolder).renamed ∧
        ∃ newName,
          mapLookup (updateParentFolders updatedActions existingFolders units
            createFolder).oldToNew name = some newName ∧
          newName ∈ (updateParentFolders updatedActions existingFolders units
            createFolder).created ∧
          mapLookup (updateParentFolders updatedActions existingFolders units
            createFolder).folderMap newName = some (createFolder newName)) := by
  unfold updateParentFolders
  by_cases h0 : (buildOldToNewMap updatedActions).length = 0
  · rw [if_pos h0]
    constructor
    · intro name hname
      cases hname
    · intro name hname
      cases hname
  · rw [if_neg h0]
    by_cases h1 : (upfCandidates updatedActions existingFolders).length ≠ 0
    · rw [if_pos h1]
      constructor
      · intro name hname
        exact upfRenamed_safety updatedActions existingFolders units name hname
      · intro name hname hmulti
        exact upfMulti_created updatedActions existingFolders units createFolder
          name hname hmulti
    · rw [if_neg h1]
      rw [not_ne_iff, List.length_eq_zero] at h1
      constructor
      · intro name hname
        cases hname
      · intro name hname
        rw [h1] at hname
        cases hname

namespace FtIntegration

/-- Concrete moved action: test renamed from "F" to "G". -/
def exMovedAction : UftoTestAction :=
  { name := "Action1", testName := some "G", oldTestName := some "F",
    moved := true, octaneStatus := OctaneStatus.MODIFIED }

/-- Unit of test `pkga\testa` under folder "F". -/
def exUnit1 : Unit :=
  { name := "u1", repository_path := "PkgA\\TestA\\Action1:LogA",
    parent := some { id := 1, name := "F" } }

/-- Unit of a different test `pkgb\testb` under the same folder "F". -/
def exUnit2 : Unit :=
  { name := "u2", repository_path := "PkgB\\TestB\\Action2:LogB",
    parent := some { id := 1, name := "F" } }

/-- Folder factory standing in for `OctaneClient.createFolders`. -/
def exCreateFolder : String → Folder :=
  fun n => { id := 99, name := n }

end FtIntegration

/-- Witness for `updateParentFolders_rename_safety`: folder "F" holds
units of two distinct tests, so it is not renamed; folder "G" is created
and appears in the returned map. -/
theorem updateParentFolders_rename_safety_witness :
    "F" ∉ (updateParentFolders [exMovedAction] [] [exUnit1, exUnit2]
      exCreateFolder).renamed ∧
    ∃ newName,
      mapLookup (updateParentFolders [exMovedAction] [] [exUnit1, exUnit2]
        exCreateFolder).oldToNew "F" = some newName ∧
      newName ∈ (updateParentFolders [exMovedAction] [] [exUnit1, exUnit2]
        exCreateFolder).created ∧
      mapLookup (updateParentFolders [exMovedAction] [] [exUnit1, exUnit2]
        exCreateFolder).folderMap newName = some (exCreateFolder newName) :=
  (updateParentFolders_rename_safety [exMovedAction] [] [exUnit1, exUnit2]
      exCreateFolder).2 "F" (by decide) (by decide)
